import Mathlib

/-!
# x11minesweeper: board engine of `src/main.c`

A shallow embedding of the game logic of `src/main.c` (`uncover_all`,
`uncover_cells`, `on_cell_clicked`, `on_cell_marked`, `reset`) and the
properties of it that the specification states.

Modelling conventions.

* C `int` values are `Int`; no arithmetic here leaves the range of a 32-bit
  `int` (coordinates are 16-bit, indices are below `16 * 32768`).
* `enum entity_kind` is the C integer of each enumerator, a `Nat`
  (`COVERED = 0`, ..., `MINE_IDLE = 13`), so that `UNCOVERED_0 + minecount`
  is the addition the source performs.
* The arrays `entities` and `mines` of `struct scene` are total maps from
  the C index to the stored value; cells of the board are the indices
  `0 .. 255`.  An access outside that range is undefined behaviour in C and
  is given no meaning by the theorems: they carry in-bounds hypotheses.
* `mines[i]` only ever holds the value of the comparison
  `rand() < RAND_MAX/4` (0 or 1) or the zero of the initialiser, so it is a
  `Bool`; `mines += scene->mines[i]` adds 1 for `true` and 0 for `false`.
* The X11 handles of `struct scene` take no part in the game logic and are
  left out.
-/

namespace Minesweeper

/-! ## Constants and the data model -/

/-- The constant `ENTITY_WIDTH`, `#define ENTITY_WIDTH 16`. -/
def ENTITY_WIDTH : Int := 16
/-- The constant `ENTITY_HEIGHT`, `#define ENTITY_HEIGHT 16`. -/
def ENTITY_HEIGHT : Int := 16
/-- The constant `MAP_COLUMNS`, `#define MAP_COLUMNS 16`. -/
def MAP_COLUMNS : Int := 16
/-- The constant `MAP_ROWS`, `#define MAP_ROWS 16`. -/
def MAP_ROWS : Int := 16

/-- The enumerators of `enum entity_kind`, in the order of the source, from
`COVERED = 0` to `MINE_IDLE = 13`. -/
def COVERED : Nat := 0
def FLAGGED : Nat := 1
def UNCOVERED_0 : Nat := 2
def UNCOVERED_1 : Nat := 3
def UNCOVERED_2 : Nat := 4
def UNCOVERED_3 : Nat := 5
def UNCOVERED_4 : Nat := 6
def UNCOVERED_5 : Nat := 7
def UNCOVERED_6 : Nat := 8
def UNCOVERED_7 : Nat := 9
def UNCOVERED_8 : Nat := 10
def MINE_EXPLODED : Nat := 11
def MINE_CROSSED : Nat := 12
def MINE_IDLE : Nat := 13

/-- The game part of `struct scene`: the two arrays of `MAP_COLUMNS * MAP_ROWS`
entries. -/
@[ext]
structure scene where
  entities : Int → Nat
  mines : Int → Bool

/-- The assignment `scene->entities[idx] = v`. -/
def setEntity (s : scene) (idx : Int) (v : Nat) : scene :=
  { s with entities := fun j => if j = idx then v else s.entities j }

/-- The assignment `scene->mines[idx] = b`. -/
def setMine (s : scene) (idx : Int) (b : Bool) : scene :=
  { s with mines := fun j => if j = idx then b else s.mines j }

/-! ## The operations -/

/-- The function `reset`: every entity becomes `COVERED`, then every mine flag is drawn
as `rand() < RAND_MAX/4`.  The library constant `RAND_MAX` and the sequence
of values returned by the successive calls of `rand()` are parameters. -/
def reset (RAND_MAX : Int) (rand : Nat → Int) (s : scene) : scene :=
  let s1 := (List.range (MAP_COLUMNS * MAP_ROWS).toNat).foldl
    (fun acc (i : Nat) => setEntity acc (i : Int) COVERED) s
  (List.range (MAP_COLUMNS * MAP_ROWS).toNat).foldl
    (fun acc (i : Nat) => setMine acc (i : Int) (decide (rand i < Int.tdiv RAND_MAX 4))) s1

/-- Body of the loop of `uncover_all` at index `i`. -/
def uncover_all_step (s : scene) (i : Int) : scene :=
  if s.mines i = true then setEntity s i MINE_IDLE
  else if s.entities i = FLAGGED then setEntity s i MINE_CROSSED
  else s

/-- The function `uncover_all`: the loop over `i = 0 .. MAP_COLUMNS * MAP_ROWS - 1`. -/
def uncover_all (s : scene) : scene :=
  (List.range (MAP_COLUMNS * MAP_ROWS).toNat).foldl
    (fun acc (i : Nat) => uncover_all_step acc (i : Int)) s

/-- The table `dx` of `uncover_cells`. -/
def dx : List Int := [-1, 0, 1, 1, 1, 0, -1, -1]
/-- The table `dy` of `uncover_cells`. -/
def dy : List Int := [-1, -1, -1, 0, 1, 1, 1, 0]
/-- The table `nx` of `uncover_cells`. -/
def nx : List Int := [-1, 0, 1, 0]
/-- The table `ny` of `uncover_cells`. -/
def ny : List Int := [0, -1, 0, 1]

/-- The first loop of `uncover_cells`: `minecount` after the eight
iterations over `dx`, `dy`. -/
def count_mines (s : scene) (x y : Int) : Nat :=
  (dx.zip dy).foldl
    (fun minecount d =>
      let x1 := x + d.1
      let y1 := y + d.2
      if 0 ≤ x1 ∧ x1 < MAP_COLUMNS ∧ 0 ≤ y1 ∧ y1 < MAP_ROWS
          ∧ s.mines (y1 * MAP_COLUMNS + x1) = true
      then minecount + 1 else minecount) 0

/-- The function `uncover_cells` with a bound on the nesting of its recursion.  A call
that fails the guard returns at once; a call that passes it needs one unit
of `fuel` for its frame and hands the rest to the calls it makes.  The
second component of the result is a ghost counter: the number of calls,
this one included, that passed the guard. `none` means that the nesting
exceeded `fuel`. -/
def uncover_cells_fuel : Nat → scene → Int → Int → Option (scene × Nat)
  | fuel, s, x, y =>
    let idx := y * MAP_COLUMNS + x
    if s.entities idx ≠ COVERED ∨ s.mines idx = true then some (s, 0)
    else
      match fuel with
      | 0 => none
      | fuel + 1 =>
        let s1 := setEntity s idx (UNCOVERED_0 + count_mines s x y)
        (nx.zip ny).foldlM
          (fun (acc : scene × Nat) d =>
            let x1 := x + d.1
            let y1 := y + d.2
            if 0 ≤ x1 ∧ x1 < MAP_COLUMNS ∧ 0 ≤ y1 ∧ y1 < MAP_ROWS then
              (uncover_cells_fuel fuel acc.1 x1 y1).map
                (fun r => (r.1, acc.2 + r.2))
            else some acc)
          (s1, 1)

/-- The function `uncover_cells`: the recursion run with room for one frame per cell of
the board (`uncover_cells_spec` shows that this never runs out). -/
def uncover_cells (s : scene) (x y : Int) : scene :=
  match uncover_cells_fuel (MAP_COLUMNS * MAP_ROWS).toNat s x y with
  | some r => r.1
  | none => s

/-- The line `int column = x / ENTITY_WIDTH;` of `on_cell_clicked` and
`on_cell_marked`: C division, which truncates towards zero. -/
def pointer_column (x : Int) : Int := Int.tdiv x ENTITY_WIDTH

/-- The line `int row = y / ENTITY_HEIGHT;` of `on_cell_clicked` and
`on_cell_marked`. -/
def pointer_row (y : Int) : Int := Int.tdiv y ENTITY_HEIGHT

/-- The counting loop of the win check of `on_cell_clicked`: the final
values of `covered` and `mines`. -/
def win_counts (s : scene) : Int × Int :=
  (List.range (MAP_COLUMNS * MAP_ROWS).toNat).foldl
    (fun (acc : Int × Int) (i : Nat) =>
      (acc.1 + (if s.entities (i : Int) = COVERED ∨ s.entities (i : Int) = FLAGGED
                then 1 else 0),
       acc.2 + (if s.mines (i : Int) = true then 1 else 0)))
    (0, 0)

/-- The function `on_cell_clicked` on the pointer position `(x, y)`.  The second
component of the result records whether the call ran `uncover_all`. -/
def on_cell_clicked_traced (s : scene) (x y : Int) : scene × Bool :=
  let column := pointer_column x
  let row := pointer_row y
  let idx := row * MAP_COLUMNS + column
  if s.entities idx = FLAGGED then (s, false)
  else if s.mines idx = true then
    (setEntity (uncover_all s) idx MINE_EXPLODED, true)
  else
    let s1 := uncover_cells s column row
    let c := win_counts s1
    if c.1 = c.2 then (uncover_all s1, true) else (s1, false)

/-- The function `on_cell_clicked`: the scene it leaves. -/
def on_cell_clicked (s : scene) (x y : Int) : scene :=
  (on_cell_clicked_traced s x y).1

/-- The function `on_cell_marked` on the pointer position `(x, y)`. -/
def on_cell_marked (s : scene) (x y : Int) : scene :=
  let column := pointer_column x
  let row := pointer_row y
  let idx := row * MAP_COLUMNS + column
  if s.entities idx = FLAGGED then setEntity s idx COVERED
  else if s.entities idx = COVERED then setEntity s idx FLAGGED
  else s

/-! ## Vocabulary of the specification -/

/-- The coordinate `(x, y)` is a cell of the board. -/
def inb (x y : Int) : Prop :=
  0 ≤ x ∧ x < MAP_COLUMNS ∧ 0 ≤ y ∧ y < MAP_ROWS

instance (x y : Int) : Decidable (inb x y) :=
  inferInstanceAs (Decidable (0 ≤ x ∧ x < MAP_COLUMNS ∧ 0 ≤ y ∧ y < MAP_ROWS))

/-- Index of the cell `(x, y)` in the two arrays, `y * MAP_COLUMNS + x`. -/
def cell (x y : Int) : Int := y * MAP_COLUMNS + x

/-- The cell `(x, y)` is `Covered` and holds no mine: the cells on which the
guard of `uncover_cells` lets a call through. -/
def covered_safe (s : scene) (x y : Int) : Prop :=
  s.entities (cell x y) = COVERED ∧ s.mines (cell x y) = false

instance (s : scene) (x y : Int) : Decidable (covered_safe s x y) :=
  inferInstanceAs (Decidable (s.entities (cell x y) = COVERED ∧ s.mines (cell x y) = false))

/-- The cell `(x, y)` holds no mine. -/
def safe (s : scene) (x y : Int) : Prop := s.mines (cell x y) = false

instance (s : scene) (x y : Int) : Decidable (safe s x y) :=
  inferInstanceAs (Decidable (s.mines (cell x y) = false))

/-- The cells `(a, b)` and `(c, d)` are orthogonal neighbours. -/
def orth (a b c d : Int) : Prop :=
  (c = a - 1 ∧ d = b) ∨ (c = a ∧ d = b - 1) ∨ (c = a + 1 ∧ d = b) ∨ (c = a ∧ d = b + 1)

instance (a b c d : Int) : Decidable (orth a b c d) :=
  inferInstanceAs (Decidable
    ((c = a - 1 ∧ d = b) ∨ (c = a ∧ d = b - 1) ∨ (c = a + 1 ∧ d = b) ∨ (c = a ∧ d = b + 1)))

/-- Reachability `Reach P x y c d`: the cell `(c, d)` is joined to `(x, y)` by orthogonal
steps inside the grid that visit only cells satisfying `P`, both ends
included. -/
inductive Reach (P : Int → Int → Prop) (x y : Int) : Int → Int → Prop
  | start : inb x y → P x y → Reach P x y x y
  | step {a b c d : Int} : Reach P x y a b → orth a b c d → inb c d → P c d →
      Reach P x y c d

/-- Number of mines among the in-grid cells that touch `(x, y)` by a side or
a corner, counted over the whole grid as the specification words it. -/
def spec_neighbour_mines (s : scene) (x y : Int) : Nat :=
  ((Finset.range 16 ×ˢ Finset.range 16).filter
    (fun p : Nat × Nat =>
      ((p.1 : Int), (p.2 : Int)) ≠ (x, y)
        ∧ |(p.1 : Int) - x| ≤ 1 ∧ |(p.2 : Int) - y| ≤ 1
        ∧ s.mines (cell p.1 p.2) = true)).card

/-- Number of cells of the board that are `Covered` and hold no mine. -/
def covered_safe_count (s : scene) : Nat :=
  (List.range 256).countP
    (fun (i : Nat) => decide (s.entities (i : Int) = COVERED ∧ s.mines (i : Int) = false))

/-- Number of cells of the board whose state is `Covered` or `Flagged`,
counted as the size of that set of cells, as the specification words the
left side of the win check. -/
def spec_covered_or_flagged (s : scene) : Nat :=
  ((Finset.range 256).filter
    (fun i : Nat => s.entities (i : Int) = COVERED ∨ s.entities (i : Int) = FLAGGED)).card

/-- Number of cells of the board that hold a mine, counted as the size of
that set of cells, as the specification words the right side of the win
check. -/
def spec_mine_count (s : scene) : Nat :=
  ((Finset.range 256).filter (fun i : Nat => s.mines (i : Int) = true)).card

/-- A pointer position that resolves to a cell of the board. -/
def pointer_inb (x y : Int) : Prop := inb (pointer_column x) (pointer_row y)

instance (x y : Int) : Decidable (pointer_inb x y) :=
  inferInstanceAs (Decidable (inb (pointer_column x) (pointer_row y)))

/-- The relation `Cascade T s s'`: the scene `s'` is `s` with some cells revealed; the
mine layout is the same, and every entity that differs belongs to a cell of
the board in `T` that was `Covered` without a mine in `s` and now shows its
count of neighbouring mines. -/
def Cascade (T : Int → Int → Prop) (s s' : scene) : Prop :=
  s'.mines = s.mines ∧
  ∀ j : Int, s'.entities j = s.entities j ∨
    ∃ x y : Int, inb x y ∧ j = cell x y ∧ covered_safe s x y ∧ T x y
      ∧ s'.entities j = UNCOVERED_0 + count_mines s x y

/-- The relation `Closed s s'`: around every cell whose entity differs between `s` and
`s'`, no orthogonal neighbour inside the grid is still `Covered` without a
mine in `s'`. -/
def Closed (s s' : scene) : Prop :=
  ∀ x y : Int, inb x y → s'.entities (cell x y) ≠ s.entities (cell x y) →
    ∀ c d : Int, orth x y c d → inb c d → ¬ covered_safe s' c d

/-- What one call `uncover_cells(scene, x, y)` achieves, from `s` to `s'`
with `k` calls passing the guard. -/
def Uncovered (s : scene) (x y : Int) (s' : scene) (k : Nat) : Prop :=
  Cascade (Reach (covered_safe s) x y) s s' ∧ Closed s s' ∧ ¬ covered_safe s' x y
    ∧ covered_safe_count s' + k = covered_safe_count s

/-- State of the second loop of `uncover_cells` in the call on `(x, y)` that
started in `s` and stored its count to reach `s1`. -/
def LoopInv (s s1 : scene) (x y : Int) (acc : scene × Nat) : Prop :=
  Cascade (Reach (covered_safe s) x y) s acc.1 ∧ Closed s1 acc.1
    ∧ Cascade (fun _ _ => True) s1 acc.1
    ∧ 1 ≤ acc.2 ∧ covered_safe_count acc.1 + acc.2 = covered_safe_count s

/-- Every cell of the board is `Covered`: the board as `reset` leaves it. -/
def all_covered (s : scene) : Prop :=
  ∀ i : Int, 0 ≤ i → i < MAP_COLUMNS * MAP_ROWS → s.entities i = COVERED

/-- The two button releases that the event loop of `main` hands to the
board: button 1 calls `on_cell_clicked`, button 3 calls `on_cell_marked`,
both with the pointer position of the event. -/
inductive action where
  | clicked (x y : Int)
  | marked (x y : Int)

/-- The pointer position of the event resolves to a cell of the board. -/
def action.in_grid : action → Prop
  | action.clicked x y => pointer_inb x y
  | action.marked x y => pointer_inb x y

instance (a : action) : Decidable a.in_grid := by
  cases a <;> exact inferInstanceAs (Decidable (pointer_inb _ _))

/-- The call that the event loop makes for one button release. -/
def handle (s : scene) : action → scene
  | action.clicked x y => on_cell_clicked s x y
  | action.marked x y => on_cell_marked s x y

/-- The scene after a sequence of button releases. -/
def play (s : scene) (l : List action) : scene := l.foldl handle s

/-- Scenes that a game can reach: from a board with every cell `Covered`,
by calls of `on_cell_clicked` and `on_cell_marked` on cells of the board. -/
inductive Reachable : scene → Prop
  | init (s : scene) : all_covered s → Reachable s
  | clicked (s : scene) (x y : Int) :
      Reachable s → pointer_inb x y → Reachable (on_cell_clicked s x y)
  | marked (s : scene) (x y : Int) :
      Reachable s → pointer_inb x y → Reachable (on_cell_marked s x y)

/-- Scenes of a game in which no call has run `uncover_all` yet. -/
inductive Playing : scene → Prop
  | init (s : scene) : all_covered s → Playing s
  | clicked (s : scene) (x y : Int) :
      Playing s → pointer_inb x y → (on_cell_clicked_traced s x y).2 = false →
      Playing (on_cell_clicked s x y)
  | marked (s : scene) (x y : Int) :
      Playing s → pointer_inb x y → Playing (on_cell_marked s x y)

/-- On every cell of the board the entity is one that the cell can show: a
mine is covered, flagged, idle or exploded; a cell without a mine is
covered, flagged, crossed or shows a count of at most 8. -/
def WellFormed (s : scene) : Prop :=
  ∀ i : Int, 0 ≤ i → i < MAP_COLUMNS * MAP_ROWS →
    (s.mines i = true →
      s.entities i = COVERED ∨ s.entities i = FLAGGED ∨ s.entities i = MINE_IDLE
        ∨ s.entities i = MINE_EXPLODED)
    ∧ (s.mines i = false →
      s.entities i = COVERED ∨ s.entities i = FLAGGED ∨ s.entities i = MINE_CROSSED
        ∨ ∃ n : Nat, n ≤ 8 ∧ s.entities i = UNCOVERED_0 + n)

/-- On every cell of the board a mine is covered or flagged, and a cell
without a mine is covered, flagged or shows a count of at most 8. -/
def InPlay (s : scene) : Prop :=
  ∀ i : Int, 0 ≤ i → i < MAP_COLUMNS * MAP_ROWS →
    (s.mines i = true → s.entities i = COVERED ∨ s.entities i = FLAGGED)
    ∧ (s.mines i = false →
      s.entities i = COVERED ∨ s.entities i = FLAGGED
        ∨ ∃ n : Nat, n ≤ 8 ∧ s.entities i = UNCOVERED_0 + n)

/-- A board used to exercise the theorems: mines at the cells `(0, 0)` and
`(3, 0)`, flags on the cells `(2, 0)` and `(3, 0)`, every other cell
`Covered`. -/
def demo_board : scene where
  entities := fun j => if j = 2 ∨ j = 3 then FLAGGED else COVERED
  mines := fun j => decide (j = 0 ∨ j = 3)

/-- A board with a short cascade: mines everywhere except on the four cells
`(0, 0)`, `(1, 0)`, `(0, 1)`, `(1, 1)` of the top left corner, a flag on the
cell `(1, 0)`, every other cell `Covered`. -/
def corner_board : scene where
  entities := fun j => if j = 1 then FLAGGED else COVERED
  mines := fun j => !decide (j = 0 ∨ j = 1 ∨ j = 16 ∨ j = 17)

/-- A new game on the layout of `corner_board`: mines everywhere except on
the four cells of the top left corner, every cell `Covered`. -/
def corner_new : scene where
  entities := fun _ => COVERED
  mines := fun j => !decide (j = 0 ∨ j = 1 ∨ j = 16 ∨ j = 17)

/-- A new game with mines at the cells `(0, 0)` and `(3, 0)`. -/
def two_mine_board : scene where
  entities := fun _ => COVERED
  mines := fun j => decide (j = 0 ∨ j = 3)

/-- A new game with 127 mines: a mine on every cell `(x, y)` of the board
with `x + y` even, except the corner `(0, 0)`. -/
def checker_board : scene where
  entities := fun _ => COVERED
  mines := fun j => decide (j ≠ 0 ∧ (j % 16 + j / 16) % 2 = 0)

/-! # Theorems -/

set_option maxRecDepth 100000

/-! ## Elementary facts -/

theorem setEntity_entities (s : scene) (idx : Int) (v : Nat) (j : Int) :
    (setEntity s idx v).entities j = if j = idx then v else s.entities j := rfl

theorem setEntity_mines (s : scene) (idx : Int) (v : Nat) :
    (setEntity s idx v).mines = s.mines := rfl

theorem board_size : (MAP_COLUMNS * MAP_ROWS).toNat = 256 := by decide

/-- The loop of `uncover_all` run over the indices `0 .. n - 1`. -/
theorem uncover_all_loop (s : scene) (n : Nat) :
    ((List.range n).foldl (fun acc (i : Nat) => uncover_all_step acc (i : Int)) s).mines
        = s.mines
      ∧ ∀ j : Int,
        ((List.range n).foldl
            (fun acc (i : Nat) => uncover_all_step acc (i : Int)) s).entities j
          = if 0 ≤ j ∧ j < n then
              (if s.mines j = true then MINE_IDLE
               else if s.entities j = FLAGGED then MINE_CROSSED else s.entities j)
            else s.entities j := by
  induction n with
  | zero =>
    refine ⟨rfl, fun j => ?_⟩
    have : ¬ (0 ≤ j ∧ j < ((0 : Nat) : Int)) := by omega
    simp only [List.range_zero, List.foldl_nil]
    rw [if_neg this]
  | succ n ih =>
    obtain ⟨hm, he⟩ := ih
    rw [List.range_succ, List.foldl_append]
    simp only [List.foldl_cons, List.foldl_nil]
    generalize hr : (List.range n).foldl
      (fun acc (i : Nat) => uncover_all_step acc (i : Int)) s = r at hm he
    have hn : r.entities (n : Int) = s.entities (n : Int) := by
      rw [he]
      have : ¬ (0 ≤ (n : Int) ∧ (n : Int) < (n : Int)) := by omega
      simp [this]
    constructor
    · unfold uncover_all_step
      split_ifs <;> simp [setEntity_mines, hm]
    · intro j
      by_cases hj : j = (n : Int)
      · subst hj
        have h1 : (0 : Int) ≤ (n : Int) ∧ (n : Int) < ((n + 1 : Nat) : Int) := by
          constructor <;> omega
        rw [if_pos h1]
        unfold uncover_all_step
        rw [hm, hn]
        split_ifs <;> simp_all [setEntity_entities]
      · have h2 : (0 ≤ j ∧ j < ((n + 1 : Nat) : Int)) ↔ (0 ≤ j ∧ j < (n : Int)) := by
          constructor <;> intro h <;> constructor <;> omega
        have h3 : (uncover_all_step r (n : Int)).entities j = r.entities j := by
          unfold uncover_all_step
          split_ifs <;> simp [setEntity_entities, hj]
        rw [h3, he]
        simp only [h2]

theorem uncover_all_mines (s : scene) : (uncover_all s).mines = s.mines := by
  unfold uncover_all
  exact (uncover_all_loop s _).1

theorem uncover_all_entities (s : scene) (j : Int) :
    (uncover_all s).entities j
      = if 0 ≤ j ∧ j < 256 then
          (if s.mines j = true then MINE_IDLE
           else if s.entities j = FLAGGED then MINE_CROSSED else s.entities j)
        else s.entities j := by
  unfold uncover_all
  rw [(uncover_all_loop s _).2 j, board_size]
  rfl

/-! ## A new game -/

theorem reset_entities_loop (s : scene) (n : Nat) (j : Int) :
    ((List.range n).foldl (fun acc (i : Nat) => setEntity acc (i : Int) COVERED) s).entities j
      = if 0 ≤ j ∧ j < n then COVERED else s.entities j := by
  induction n with
  | zero =>
    have : ¬ (0 ≤ j ∧ j < ((0 : Nat) : Int)) := by omega
    simp only [List.range_zero, List.foldl_nil]
    rw [if_neg this]
  | succ n ih =>
    rw [List.range_succ, List.foldl_append]
    simp only [List.foldl_cons, List.foldl_nil]
    rw [setEntity_entities, ih]
    by_cases hj : j = (n : Int)
    · have h1 : 0 ≤ j ∧ j < ((n + 1 : Nat) : Int) := by constructor <;> omega
      rw [if_pos hj, if_pos h1]
    · rw [if_neg hj]
      by_cases h2 : 0 ≤ j ∧ j < (n : Int)
      · have h1 : 0 ≤ j ∧ j < ((n + 1 : Nat) : Int) := by constructor <;> omega
        rw [if_pos h2, if_pos h1]
      · have h1 : ¬ (0 ≤ j ∧ j < ((n + 1 : Nat) : Int)) := by omega
        rw [if_neg h2, if_neg h1]

theorem reset_mines_loop (f : Nat → Bool) (s : scene) (n : Nat) :
    ((List.range n).foldl (fun acc (i : Nat) => setMine acc (i : Int) (f i)) s).entities
      = s.entities := by
  induction n with
  | zero => rfl
  | succ n ih =>
    rw [List.range_succ, List.foldl_append]
    simp only [List.foldl_cons, List.foldl_nil]
    exact ih

/-- After `reset` every cell of the board is `COVERED`. -/
theorem reset_all_covered (RAND_MAX : Int) (rand : Nat → Int) (s : scene) :
    all_covered (reset RAND_MAX rand s) := by
  intro i h0 h1
  unfold reset
  simp only []
  rw [reset_mines_loop (fun i => decide (rand i < Int.tdiv RAND_MAX 4)), reset_entities_loop,
    board_size]
  have : 0 ≤ i ∧ i < ((256 : Nat) : Int) := by
    simp only [MAP_COLUMNS, MAP_ROWS] at h1
    constructor <;> omega
  rw [if_pos this]

/-- C3. `uncover_all` (RevealAllMines): the mine layout is unchanged and, on
every cell of the board, a mine becomes `MINE_IDLE` whatever it showed, a
flagged cell without a mine becomes `MINE_CROSSED`, and any other cell
without a mine keeps its state. -/
theorem uncover_all_postcondition (s : scene) :
    (uncover_all s).mines = s.mines ∧
    ∀ i : Int, 0 ≤ i → i < MAP_COLUMNS * MAP_ROWS →
      (s.mines i = true → (uncover_all s).entities i = MINE_IDLE) ∧
      (s.mines i = false → s.entities i = FLAGGED →
        (uncover_all s).entities i = MINE_CROSSED) ∧
      (s.mines i = false → s.entities i ≠ FLAGGED →
        (uncover_all s).entities i = s.entities i) := by
  refine ⟨uncover_all_mines s, fun i h0 h1 => ?_⟩
  have hi : 0 ≤ i ∧ i < 256 := ⟨h0, by simpa [MAP_COLUMNS, MAP_ROWS] using h1⟩
  rw [uncover_all_entities, if_pos hi]
  refine ⟨fun hm => by simp [hm], fun hm hf => by simp [hm, hf], fun hm hf => by simp [hm, hf]⟩

/-- C3 on `demo_board`: the flagged mine `(3, 0)` becomes `MINE_IDLE`, the
wrongly flagged cell `(2, 0)` becomes `MINE_CROSSED`, the covered cell
`(1, 0)` stays `COVERED`. -/
theorem uncover_all_postcondition_witness :
    (uncover_all demo_board).entities 3 = MINE_IDLE
      ∧ (uncover_all demo_board).entities 2 = MINE_CROSSED
      ∧ (uncover_all demo_board).entities 1 = COVERED :=
  ⟨((uncover_all_postcondition demo_board).2 3 (by decide) (by decide)).1 (by decide),
   ((uncover_all_postcondition demo_board).2 2 (by decide) (by decide)).2.1
      (by decide) (by decide),
   (((uncover_all_postcondition demo_board).2 1 (by decide) (by decide)).2.2
      (by decide) (by decide)).trans (by decide)⟩

/-- C2. Loss path of `on_cell_clicked`: on a cell of the board that holds a
mine and is not flagged, the clicked cell becomes `MINE_EXPLODED`, every
other mine `MINE_IDLE`, every flagged cell without a mine `MINE_CROSSED`,
every other cell without a mine keeps its state, and the mine layout is
unchanged. -/
theorem on_cell_clicked_loss (s : scene) (x y : Int) (hb : pointer_inb x y)
    (hm : s.mines (cell (pointer_column x) (pointer_row y)) = true)
    (hf : s.entities (cell (pointer_column x) (pointer_row y)) ≠ FLAGGED) :
    (on_cell_clicked s x y).mines = s.mines ∧
    (on_cell_clicked s x y).entities (cell (pointer_column x) (pointer_row y))
      = MINE_EXPLODED ∧
    ∀ i : Int, 0 ≤ i → i < MAP_COLUMNS * MAP_ROWS →
      i ≠ cell (pointer_column x) (pointer_row y) →
      (s.mines i = true → (on_cell_clicked s x y).entities i = MINE_IDLE) ∧
      (s.mines i = false → s.entities i = FLAGGED →
        (on_cell_clicked s x y).entities i = MINE_CROSSED) ∧
      (s.mines i = false → s.entities i ≠ FLAGGED →
        (on_cell_clicked s x y).entities i = s.entities i) := by
  have hb' := hb
  unfold cell at hm hf ⊢
  have hr : on_cell_clicked s x y
      = setEntity (uncover_all s) (pointer_row y * MAP_COLUMNS + pointer_column x)
          MINE_EXPLODED := by
    unfold on_cell_clicked on_cell_clicked_traced
    simp only [if_neg hf, if_pos hm]
  rw [hr]
  refine ⟨by rw [setEntity_mines, uncover_all_mines], by simp [setEntity_entities], ?_⟩
  intro i h0 h1 hne
  have hi : 0 ≤ i ∧ i < 256 := ⟨h0, by simpa [MAP_COLUMNS, MAP_ROWS] using h1⟩
  simp only [setEntity_entities, if_neg hne]
  rw [uncover_all_entities, if_pos hi]
  refine ⟨fun hm => by simp [hm], fun hm hf => by simp [hm, hf], fun hm hf => by simp [hm, hf]⟩

/-- C2 on `demo_board`: clicking the unflagged mine `(0, 0)`. -/
theorem on_cell_clicked_loss_witness :
    pointer_inb 0 0
      ∧ (on_cell_clicked demo_board 0 0).entities (cell (pointer_column 0) (pointer_row 0))
          = MINE_EXPLODED :=
  ⟨by decide,
   (on_cell_clicked_loss demo_board 0 0 (by decide) (by decide) (by decide)).2.1⟩

/-- C6. `on_cell_marked` is a toggle confined to the resolved cell: `FLAGGED`
becomes `COVERED`, `COVERED` becomes `FLAGGED`, any other state leaves the
scene as it is; no other entity and no mine flag changes; and a second call
on the same position restores the scene exactly. -/
theorem on_cell_marked_toggle (s : scene) (x y : Int) (hb : pointer_inb x y) :
    (on_cell_marked s x y).mines = s.mines ∧
    (s.entities (cell (pointer_column x) (pointer_row y)) = FLAGGED →
      (on_cell_marked s x y).entities (cell (pointer_column x) (pointer_row y))
        = COVERED) ∧
    (s.entities (cell (pointer_column x) (pointer_row y)) = COVERED →
      (on_cell_marked s x y).entities (cell (pointer_column x) (pointer_row y))
        = FLAGGED) ∧
    (s.entities (cell (pointer_column x) (pointer_row y)) ≠ FLAGGED →
      s.entities (cell (pointer_column x) (pointer_row y)) ≠ COVERED →
      on_cell_marked s x y = s) ∧
    (∀ j : Int, j ≠ cell (pointer_column x) (pointer_row y) →
      (on_cell_marked s x y).entities j = s.entities j) ∧
    on_cell_marked (on_cell_marked s x y) x y = s := by
  have hb' := hb
  unfold cell
  unfold on_cell_marked
  simp only []
  generalize pointer_row y * MAP_COLUMNS + pointer_column x = idx
  have hcf : COVERED ≠ FLAGGED := by decide
  by_cases hF : s.entities idx = FLAGGED
  · have hC : s.entities idx ≠ COVERED := by rw [hF]; decide
    simp only [if_pos hF, setEntity_entities, setEntity_mines, if_true, if_neg hcf]
    refine ⟨trivial, fun _ => trivial, fun h => absurd h hC, fun h => absurd hF h, ?_, ?_⟩
    · intro j hj; rw [if_neg hj]
    · ext j
      · show (if j = idx then FLAGGED else if j = idx then COVERED else s.entities j)
          = s.entities j
        by_cases hj : j = idx
        · rw [if_pos hj, hj, hF]
        · rw [if_neg hj, if_neg hj]
      · rfl
  · by_cases hC : s.entities idx = COVERED
    · simp only [if_neg hF, if_pos hC, setEntity_entities, setEntity_mines, if_true]
      refine ⟨trivial, fun h => absurd h hF, fun _ => trivial, fun _ h => absurd hC h, ?_, ?_⟩
      · intro j hj; rw [if_neg hj]
      · ext j
        · show (if j = idx then COVERED else if j = idx then FLAGGED else s.entities j)
            = s.entities j
          by_cases hj : j = idx
          · rw [if_pos hj, hj, hC]
          · rw [if_neg hj, if_neg hj]
        · rfl
    · simp only [if_neg hF, if_neg hC]
      exact ⟨trivial, fun h => absurd h hF, fun h => absurd h hC, fun _ _ => trivial,
        fun _ _ => trivial, trivial⟩

/-- C6 on `demo_board`: flagging the covered cell `(1, 0)` and restoring the
board with a second call. -/
theorem on_cell_marked_toggle_witness :
    pointer_inb 16 0
      ∧ (on_cell_marked demo_board 16 0).entities (cell (pointer_column 16) (pointer_row 0))
          = FLAGGED
      ∧ on_cell_marked (on_cell_marked demo_board 16 0) 16 0 = demo_board :=
  ⟨by decide,
   (on_cell_marked_toggle demo_board 16 0 (by decide)).2.2.1 (by decide),
   (on_cell_marked_toggle demo_board 16 0 (by decide)).2.2.2.2.2⟩

/-- C7. The pointer position `(0, 256)` is a pair of 16-bit signed integers,
yet `on_cell_clicked` and `on_cell_marked` resolve it to row 16, outside the
board, and to the index 256, one past the end of the arrays. -/
theorem pointer_resolution_escapes :
    (-32768 ≤ (0 : Int) ∧ (0 : Int) ≤ 32767 ∧ -32768 ≤ (256 : Int) ∧ (256 : Int) ≤ 32767)
      ∧ pointer_column 0 = 0 ∧ pointer_row 256 = 16
      ∧ ¬ pointer_inb 0 256
      ∧ cell (pointer_column 0) (pointer_row 256) = 256
      ∧ ¬ (cell (pointer_column 0) (pointer_row 256) < MAP_COLUMNS * MAP_ROWS) := by
  decide

/-! ## The neighbour count -/

theorem foldl_count {α : Type} (p : α → Prop) [DecidablePred p] (l : List α) (n : Nat) :
    l.foldl (fun c d => if p d then c + 1 else c) n
      = n + l.countP (fun d => decide (p d)) := by
  induction l generalizing n with
  | nil => simp
  | cons a l ih =>
    rw [List.foldl_cons, ih, List.countP_cons]
    by_cases h : p a
    · simp [h]
      omega
    · simp [h]

theorem count_mines_eq_countP (s : scene) (x y : Int) :
    count_mines s x y
      = (dx.zip dy).countP
          (fun d => decide (inb (x + d.1) (y + d.2) ∧ s.mines (cell (x + d.1) (y + d.2)) = true)) := by
  unfold count_mines
  have h := foldl_count
    (fun d : Int × Int => inb (x + d.1) (y + d.2) ∧ s.mines (cell (x + d.1) (y + d.2)) = true)
    (dx.zip dy) 0
  rw [Nat.zero_add] at h
  rw [← h]
  unfold inb cell
  simp only [and_assoc]

theorem count_mines_le (s : scene) (x y : Int) : count_mines s x y ≤ 8 := by
  rw [count_mines_eq_countP]
  exact List.countP_le_length _

theorem count_mines_congr (s s' : scene) (h : s'.mines = s.mines) (x y : Int) :
    count_mines s' x y = count_mines s x y := by
  unfold count_mines
  rw [h]

theorem offsets_nodup : (dx.zip dy).Nodup := by decide

theorem offsets_mem (d : Int × Int) :
    d ∈ dx.zip dy ↔ (-1 ≤ d.1 ∧ d.1 ≤ 1 ∧ -1 ≤ d.2 ∧ d.2 ≤ 1 ∧ d ≠ (0, 0)) := by
  obtain ⟨a, b⟩ := d
  simp only [dx, dy, List.zip_cons_cons, List.zip_nil_right, List.mem_cons, Prod.mk.injEq,
    List.mem_singleton, List.mem_nil_iff, or_false, ne_eq, not_and]
  constructor
  · rintro (h | h | h | h | h | h | h | h) <;> obtain ⟨h1, h2⟩ := h <;> subst h1 <;> subst h2 <;> decide
  · rintro ⟨h1, h2, h3, h4, h5⟩
    have ha : a = -1 ∨ a = 0 ∨ a = 1 := by omega
    have hb : b = -1 ∨ b = 0 ∨ b = 1 := by omega
    rcases ha with ha | ha | ha <;> rcases hb with hb | hb | hb <;> subst ha <;> subst hb <;>
      simp at h5 ⊢

/-- The loop of `uncover_cells` counts the mines among the cells of the grid
that touch `(x, y)`. -/
theorem count_mines_eq_spec (s : scene) (x y : Int) (hb : inb x y) :
    count_mines s x y = spec_neighbour_mines s x y := by
  rw [count_mines_eq_countP, List.countP_eq_length_filter]
  unfold spec_neighbour_mines
  set q : Int × Int → Bool := fun d =>
    decide (inb (x + d.1) (y + d.2) ∧ s.mines (cell (x + d.1) (y + d.2)) = true) with hq
  set g : Int × Int → Nat × Nat := fun d => ((x + d.1).toNat, (y + d.2).toNat) with hg
  have hnd : (((dx.zip dy).filter q).map g).Nodup := by
    refine List.Nodup.map_on ?_ (offsets_nodup.filter _)
    intro d hd e he hde
    rw [List.mem_filter] at hd he
    have h1 := hd.2
    have h2 := he.2
    simp only [hq, decide_eq_true_eq, inb, MAP_COLUMNS, MAP_ROWS] at h1 h2
    simp only [hg, Prod.mk.injEq] at hde
    obtain ⟨d1, d2⟩ := d
    obtain ⟨e1, e2⟩ := e
    simp only [Prod.mk.injEq] at hde ⊢
    simp only at h1 h2
    omega
  rw [← List.length_map _ g, ← List.toFinset_card_of_nodup hnd]
  congr 1
  ext p
  obtain ⟨p1, p2⟩ := p
  simp only [List.mem_toFinset, List.mem_map, List.mem_filter, offsets_mem, Finset.mem_filter,
    Finset.mem_product, Finset.mem_range, hq, hg, decide_eq_true_eq, inb, MAP_COLUMNS, MAP_ROWS,
    Prod.mk.injEq, ne_eq, abs_le, not_and]
  unfold inb MAP_COLUMNS MAP_ROWS at hb
  constructor
  · rintro ⟨⟨d1, d2⟩, ⟨⟨h1, h2, h3, h4, h5⟩, ⟨h6, h7, h8, h9⟩, hm⟩, h10, h11⟩
    simp only [Prod.mk.injEq, not_and] at h5
    simp only at h1 h2 h3 h4 h6 h7 h8 h9 h10 h11 hm
    have e1 : (p1 : Int) = x + d1 := by omega
    have e2 : (p2 : Int) = y + d2 := by omega
    refine ⟨⟨by omega, by omega⟩, ?_, ⟨by omega, by omega⟩, ⟨by omega, by omega⟩, ?_⟩
    · intro h; intro h'
      exact h5 (by omega) (by omega)
    · rw [e1, e2]; exact hm
  · rintro ⟨⟨h1, h2⟩, h3, ⟨h4, h5⟩, ⟨h6, h7⟩, hm⟩
    refine ⟨((p1 : Int) - x, (p2 : Int) - y), ⟨⟨by omega, by omega, by omega, by omega, ?_⟩,
      ⟨by omega, by omega, by omega, by omega⟩, ?_⟩, by omega, by omega⟩
    · simp only [Prod.mk.injEq, not_and]
      intro h h'
      exact h3 (by omega) (by omega)
    · have e1 : x + ((p1 : Int) - x) = p1 := by omega
      have e2 : y + ((p2 : Int) - y) = p2 := by omega
      simp only [e1, e2]
      exact hm

/-! ## Cells and their indices -/

theorem cell_inj {x y x' y' : Int} (h : inb x y) (h' : inb x' y')
    (e : cell x y = cell x' y') : x = x' ∧ y = y' := by
  unfold inb MAP_COLUMNS MAP_ROWS at h h'
  unfold cell MAP_COLUMNS at e
  omega

theorem cell_range {x y : Int} (h : inb x y) : 0 ≤ cell x y ∧ cell x y < 256 := by
  unfold inb MAP_COLUMNS MAP_ROWS at h
  unfold cell MAP_COLUMNS
  omega

/-! ## Counting the covered cells without a mine -/

theorem countP_off (p q : Nat → Bool) (a : Nat) (h : ∀ i, i ≠ a → q i = p i) :
    ∀ l : List Nat, a ∉ l → l.countP q = l.countP p := by
  intro l hl
  apply List.countP_congr
  intro i hi
  have : i ≠ a := fun e => hl (e ▸ hi)
  rw [h i this]

theorem countP_flip (p q : Nat → Bool) (a : Nat) (hp : p a = true) (hq : q a = false)
    (h : ∀ i, i ≠ a → q i = p i) :
    ∀ l : List Nat, l.Nodup → a ∈ l → l.countP q + 1 = l.countP p := by
  intro l
  induction l with
  | nil => intro _ hm; simp at hm
  | cons b l ih =>
    intro hnd hm
    rw [List.nodup_cons] at hnd
    rw [List.countP_cons, List.countP_cons]
    by_cases hb : b = a
    · subst hb
      rw [countP_off p q b h l hnd.1]
      simp [hp, hq]
    · have hm' : a ∈ l := by
        rcases List.mem_cons.mp hm with e | e
        · exact absurd e.symm hb
        · exact e
      have := ih hnd.2 hm'
      rw [h b hb]
      omega

theorem covered_safe_count_le (s : scene) : covered_safe_count s ≤ 256 := by
  unfold covered_safe_count
  exact (List.countP_le_length _).trans (by simp)

theorem covered_safe_count_set (s : scene) (x y : Int) (v : Nat) (hb : inb x y)
    (hc : covered_safe s x y) (hv : v ≠ COVERED) :
    covered_safe_count (setEntity s (cell x y) v) + 1 = covered_safe_count s := by
  unfold covered_safe_count
  have hr := cell_range hb
  apply countP_flip _ _ (cell x y).toNat
  · have e : (((cell x y).toNat : Nat) : Int) = cell x y := by omega
    simp only [e, decide_eq_true_eq]
    exact hc
  · have e : (((cell x y).toNat : Nat) : Int) = cell x y := by omega
    simp [e, setEntity_entities, hv]
  · intro i hi
    have : (i : Int) ≠ cell x y := by omega
    simp [setEntity_entities, this, setEntity_mines]
  · exact List.nodup_range 256
  · rw [List.mem_range]; omega

/-! ## The relation `Cascade` -/

theorem Cascade.same (T : Int → Int → Prop) (s : scene) : Cascade T s s :=
  ⟨rfl, fun _ => Or.inl rfl⟩

theorem Cascade.widen {T T' : Int → Int → Prop} {s s' : scene}
    (h : ∀ x y, T x y → T' x y) (c : Cascade T s s') : Cascade T' s s' := by
  refine ⟨c.1, fun j => ?_⟩
  rcases c.2 j with e | ⟨x, y, hb, hj, hc, ht, hv⟩
  · exact Or.inl e
  · exact Or.inr ⟨x, y, hb, hj, hc, h x y ht, hv⟩

theorem uncovered_ne_covered (n : Nat) : UNCOVERED_0 + n ≠ COVERED := by
  unfold UNCOVERED_0 COVERED
  omega

/-- A cascade only takes cells out of the set of covered cells without a
mine. -/
theorem Cascade.covered_safe_anti {T : Int → Int → Prop} {s s' : scene}
    (c : Cascade T s s') {a b : Int} (h : covered_safe s' a b) : covered_safe s a b := by
  unfold covered_safe at h ⊢
  rw [c.1] at h
  refine ⟨?_, h.2⟩
  rcases c.2 (cell a b) with e | ⟨x, y, _, _, _, _, hv⟩
  · rw [← e]; exact h.1
  · exact absurd (hv ▸ h.1) (uncovered_ne_covered _)

theorem Cascade.and_then {T : Int → Int → Prop} {s s1 s2 : scene}
    (c1 : Cascade T s s1) (c2 : Cascade T s1 s2) : Cascade T s s2 := by
  refine ⟨c2.1.trans c1.1, fun j => ?_⟩
  rcases c2.2 j with e2 | ⟨x, y, hb, hj, hc, ht, hv⟩
  · rcases c1.2 j with e1 | ⟨x, y, hb, hj, hc, ht, hv⟩
    · exact Or.inl (e2.trans e1)
    · exact Or.inr ⟨x, y, hb, hj, hc, ht, e2.trans hv⟩
  · refine Or.inr ⟨x, y, hb, hj, c1.covered_safe_anti hc, ht, ?_⟩
    rw [hv, count_mines_congr s s1 c1.1]

/-- Storing the count in the cell on which the guard let the call through. -/
theorem Cascade.store (T : Int → Int → Prop) (s : scene) (x y : Int) (hb : inb x y)
    (hc : covered_safe s x y) (ht : T x y) :
    Cascade T s (setEntity s (cell x y) (UNCOVERED_0 + count_mines s x y)) := by
  refine ⟨rfl, fun j => ?_⟩
  by_cases hj : j = cell x y
  · exact Or.inr ⟨x, y, hb, hj, hc, ht, by simp [setEntity_entities, hj]⟩
  · exact Or.inl (by simp [setEntity_entities, hj])

theorem Closed.same_scene (s : scene) : Closed s s :=
  fun _ _ _ h => absurd rfl h

theorem Closed.and_then_closed {T : Int → Int → Prop} {s s1 s2 : scene}
    (h1 : Closed s s1) (h2 : Closed s1 s2) (c2 : Cascade T s1 s2) : Closed s s2 := by
  intro x y hb hne c d ho hcd
  by_cases e : s2.entities (cell x y) = s1.entities (cell x y)
  · rw [e] at hne
    exact fun hcs => h1 x y hb hne c d ho hcd (c2.covered_safe_anti hcs)
  · exact h2 x y hb e c d ho hcd

/-- Paths through the covered cells of a later scene that start beside
`(x, y)` are paths from `(x, y)` in the earlier scene. -/
theorem Reach.extend {T : Int → Int → Prop} {s s1 : scene} (c : Cascade T s s1)
    {x y x1 y1 : Int} (hb : inb x y) (hc : covered_safe s x y) (ho : orth x y x1 y1)
    {a b : Int} (r : Reach (covered_safe s1) x1 y1 a b) : Reach (covered_safe s) x y a b := by
  induction r with
  | start hb1 hc1 =>
    exact Reach.step (Reach.start hb hc) ho hb1 (c.covered_safe_anti hc1)
  | step _ ho' hb' hc' ih =>
    exact Reach.step ih ho' hb' (c.covered_safe_anti hc')

/-! ## Unfolding `uncover_cells` -/

theorem guard_iff (s : scene) (x y : Int) :
    (s.entities (y * MAP_COLUMNS + x) ≠ COVERED ∨ s.mines (y * MAP_COLUMNS + x) = true)
      ↔ ¬ covered_safe s x y := by
  unfold covered_safe cell
  cases s.mines (y * MAP_COLUMNS + x) <;> simp

theorem uncover_cells_fuel_guard (f : Nat) (s : scene) (x y : Int)
    (h : ¬ covered_safe s x y) : uncover_cells_fuel f s x y = some (s, 0) := by
  have hg := (guard_iff s x y).mpr h
  cases f <;> (unfold uncover_cells_fuel; simp only [if_pos hg])

theorem uncover_cells_fuel_zero (s : scene) (x y : Int) (h : covered_safe s x y) :
    uncover_cells_fuel 0 s x y = none := by
  have hg : ¬ (s.entities (y * MAP_COLUMNS + x) ≠ COVERED ∨ s.mines (y * MAP_COLUMNS + x) = true) :=
    fun hg => (guard_iff s x y).mp hg h
  unfold uncover_cells_fuel
  simp only [if_neg hg]

theorem uncover_cells_fuel_succ (f : Nat) (s : scene) (x y : Int) (h : covered_safe s x y) :
    uncover_cells_fuel (f + 1) s x y
      = (nx.zip ny).foldlM
          (fun (acc : scene × Nat) d =>
            if 0 ≤ x + d.1 ∧ x + d.1 < MAP_COLUMNS ∧ 0 ≤ y + d.2 ∧ y + d.2 < MAP_ROWS then
              (uncover_cells_fuel f acc.1 (x + d.1) (y + d.2)).map
                (fun r => (r.1, acc.2 + r.2))
            else some acc)
          (setEntity s (cell x y) (UNCOVERED_0 + count_mines s x y), 1) := by
  have hg : ¬ (s.entities (y * MAP_COLUMNS + x) ≠ COVERED ∨ s.mines (y * MAP_COLUMNS + x) = true) :=
    fun hg => (guard_iff s x y).mp hg h
  rw [uncover_cells_fuel]
  simp only [if_neg hg]
  rfl

/-! ## The recursion of `uncover_cells` -/

theorem covered_safe_count_pos (s : scene) (x y : Int) (hb : inb x y)
    (hc : covered_safe s x y) : 1 ≤ covered_safe_count s := by
  have := covered_safe_count_set s x y (UNCOVERED_0 + 0) hb hc (uncovered_ne_covered 0)
  omega

theorem Uncovered.of_guard (s : scene) (x y : Int) (h : ¬ covered_safe s x y) :
    Uncovered s x y s 0 :=
  ⟨Cascade.same _ s, Closed.same_scene s, h, rfl⟩

/-- One iteration of the second loop of `uncover_cells`, given what the
calls with the remaining fuel achieve. -/
theorem visit_spec (f : Nat)
    (ih : ∀ s x y, inb x y → covered_safe_count s ≤ f →
      ∃ s' k, uncover_cells_fuel f s x y = some (s', k) ∧ Uncovered s x y s' k)
    (s s1 : scene) (x y : Int) (hb : inb x y) (hc : covered_safe s x y)
    (hf : covered_safe_count s ≤ f + 1)
    (acc : scene × Nat) (hI : LoopInv s s1 x y acc) (d : Int × Int)
    (ho : orth x y (x + d.1) (y + d.2)) :
    ∃ acc' : scene × Nat,
      (if 0 ≤ x + d.1 ∧ x + d.1 < MAP_COLUMNS ∧ 0 ≤ y + d.2 ∧ y + d.2 < MAP_ROWS then
          (uncover_cells_fuel f acc.1 (x + d.1) (y + d.2)).map
            (fun r => (r.1, acc.2 + r.2))
        else some acc) = some acc'
      ∧ LoopInv s s1 x y acc'
      ∧ Cascade (fun _ _ => True) acc.1 acc'.1
      ∧ (inb (x + d.1) (y + d.2) → ¬ covered_safe acc'.1 (x + d.1) (y + d.2)) := by
  obtain ⟨h1, h2, h3, h4, h5⟩ := hI
  by_cases hin : inb (x + d.1) (y + d.2)
  · have hin' : 0 ≤ x + d.1 ∧ x + d.1 < MAP_COLUMNS ∧ 0 ≤ y + d.2 ∧ y + d.2 < MAP_ROWS := hin
    rw [if_pos hin']
    obtain ⟨s', k, he, hU⟩ := ih acc.1 (x + d.1) (y + d.2) hin (by omega)
    obtain ⟨u1, u2, u3, u4⟩ := hU
    refine ⟨(s', acc.2 + k), by rw [he]; rfl, ⟨?_, ?_, ?_, ?_, ?_⟩, ?_, fun _ => u3⟩
    · exact h1.and_then (u1.widen (fun a b r => Reach.extend h1 hb hc ho r))
    · exact Closed.and_then_closed h2 u2 u1
    · exact h3.and_then (u1.widen (fun _ _ _ => trivial))
    · show 1 ≤ acc.2 + k
      omega
    · show covered_safe_count s' + (acc.2 + k) = covered_safe_count s
      omega
    · exact u1.widen (fun _ _ _ => trivial)
  · have hin' : ¬ (0 ≤ x + d.1 ∧ x + d.1 < MAP_COLUMNS ∧ 0 ≤ y + d.2 ∧ y + d.2 < MAP_ROWS) := hin
    rw [if_neg hin']
    exact ⟨acc, rfl, ⟨h1, h2, h3, h4, h5⟩, Cascade.same _ _, fun h => absurd h hin⟩

/-- The second loop of `uncover_cells` over a list of offsets to orthogonal
neighbours. -/
theorem loop_spec (f : Nat)
    (ih : ∀ s x y, inb x y → covered_safe_count s ≤ f →
      ∃ s' k, uncover_cells_fuel f s x y = some (s', k) ∧ Uncovered s x y s' k)
    (s s1 : scene) (x y : Int) (hb : inb x y) (hc : covered_safe s x y)
    (hf : covered_safe_count s ≤ f + 1) :
    ∀ (l : List (Int × Int)) (acc : scene × Nat),
      (∀ d ∈ l, orth x y (x + d.1) (y + d.2)) → LoopInv s s1 x y acc →
      ∃ acc' : scene × Nat,
        l.foldlM
          (fun (acc : scene × Nat) d =>
            if 0 ≤ x + d.1 ∧ x + d.1 < MAP_COLUMNS ∧ 0 ≤ y + d.2 ∧ y + d.2 < MAP_ROWS then
              (uncover_cells_fuel f acc.1 (x + d.1) (y + d.2)).map
                (fun r => (r.1, acc.2 + r.2))
            else some acc) acc = some acc'
        ∧ LoopInv s s1 x y acc'
        ∧ Cascade (fun _ _ => True) acc.1 acc'.1
        ∧ ∀ d ∈ l, inb (x + d.1) (y + d.2) → ¬ covered_safe acc'.1 (x + d.1) (y + d.2) := by
  intro l
  induction l with
  | nil =>
    intro acc _ hI
    exact ⟨acc, rfl, hI, Cascade.same _ _, fun d hd => by simp at hd⟩
  | cons d l ihl =>
    intro acc ho hI
    obtain ⟨acc1, e1, hI1, c1, n1⟩ :=
      visit_spec f ih s s1 x y hb hc hf acc hI d (ho d (List.mem_cons_self d l))
    obtain ⟨acc2, e2, hI2, c2, n2⟩ :=
      ihl acc1 (fun e he => ho e (List.mem_cons_of_mem d he)) hI1
    refine ⟨acc2, ?_, hI2, c1.and_then c2, ?_⟩
    · rw [List.foldlM_cons, e1]
      exact e2
    · intro e he hin
      rcases List.mem_cons.mp he with h | h
      · subst h
        exact fun hcs => n1 hin (c2.covered_safe_anti hcs)
      · exact n2 e h hin

theorem orth_offsets (x y : Int) : ∀ d ∈ nx.zip ny, orth x y (x + d.1) (y + d.2) := by
  intro d hd
  simp only [nx, ny, List.zip_cons_cons, List.zip_nil_right, List.mem_cons,
    List.mem_singleton, List.mem_nil_iff, or_false] at hd
  unfold orth
  rcases hd with h | h | h | h <;> subst h <;> simp <;> omega

theorem offsets_orth {x y c d : Int} (h : orth x y c d) :
    ∃ e ∈ nx.zip ny, c = x + e.1 ∧ d = y + e.2 := by
  unfold orth at h
  simp only [nx, ny, List.zip_cons_cons, List.zip_nil_right, List.mem_cons,
    List.mem_singleton, List.mem_nil_iff, or_false, exists_eq_or_imp, exists_eq_left]
  omega

/-- With fuel for one frame per covered cell without a mine, a call of
`uncover_cells` on a cell of the board returns, and what it returns is
described by `Uncovered`. -/
theorem uncover_cells_fuel_spec :
    ∀ (f : Nat) (s : scene) (x y : Int), inb x y → covered_safe_count s ≤ f →
      ∃ s' k, uncover_cells_fuel f s x y = some (s', k) ∧ Uncovered s x y s' k := by
  intro f
  induction f with
  | zero =>
    intro s x y hb hf
    by_cases hc : covered_safe s x y
    · have := covered_safe_count_pos s x y hb hc
      omega
    · exact ⟨s, 0, uncover_cells_fuel_guard 0 s x y hc, Uncovered.of_guard s x y hc⟩
  | succ f ih =>
    intro s x y hb hf
    by_cases hc : covered_safe s x y
    · have hv := uncovered_ne_covered (count_mines s x y)
      have hcnt := covered_safe_count_set s x y _ hb hc hv
      obtain ⟨acc, e, ⟨h1, h2, h3, h4, h5⟩, _, hn⟩ :=
        loop_spec f ih s (setEntity s (cell x y) (UNCOVERED_0 + count_mines s x y)) x y hb hc hf
          (nx.zip ny) (setEntity s (cell x y) (UNCOVERED_0 + count_mines s x y), 1)
          (orth_offsets x y)
          ⟨Cascade.store _ s x y hb hc (Reach.start hb hc), Closed.same_scene _, Cascade.same _ _,
            le_refl 1, hcnt⟩
      refine ⟨acc.1, acc.2, by rw [uncover_cells_fuel_succ f s x y hc, e], h1, ?_, ?_, h5⟩
      · intro a b hab hne c d ho hcd
        by_cases hxy : cell a b = cell x y
        · obtain ⟨rfl, rfl⟩ := cell_inj hab hb hxy
          obtain ⟨e, he, rfl, rfl⟩ := offsets_orth ho
          exact hn e he hcd
        · refine h2 a b hab ?_ c d ho hcd
          rw [setEntity_entities, if_neg hxy]
          exact hne
      · intro hcs
        have := (h3.covered_safe_anti hcs).1
        rw [setEntity_entities, if_pos rfl] at this
        exact hv this
    · exact ⟨s, 0, uncover_cells_fuel_guard _ s x y hc, Uncovered.of_guard s x y hc⟩

/-- Fuel beyond what a call needs does not change its result. -/
theorem uncover_cells_fuel_mono :
    ∀ (f : Nat) (s : scene) (x y : Int) (r : scene × Nat),
      uncover_cells_fuel f s x y = some r → uncover_cells_fuel (f + 1) s x y = some r := by
  intro f
  induction f with
  | zero =>
    intro s x y r h
    by_cases hc : covered_safe s x y
    · rw [uncover_cells_fuel_zero s x y hc] at h
      exact absurd h (by simp)
    · rw [uncover_cells_fuel_guard _ s x y hc] at h ⊢
      exact h
  | succ f ih =>
    intro s x y r h
    by_cases hc : covered_safe s x y
    · rw [uncover_cells_fuel_succ _ s x y hc] at h ⊢
      revert h
      generalize (setEntity s (cell x y) (UNCOVERED_0 + count_mines s x y), 1) = acc
      generalize nx.zip ny = l
      induction l generalizing acc with
      | nil => exact fun h => h
      | cons d l ihl =>
        rw [List.foldlM_cons, List.foldlM_cons]
        by_cases hin : 0 ≤ x + d.1 ∧ x + d.1 < MAP_COLUMNS ∧ 0 ≤ y + d.2 ∧ y + d.2 < MAP_ROWS
        · simp only [if_pos hin]
          cases hr : uncover_cells_fuel f acc.1 (x + d.1) (y + d.2) with
          | none => intro h; simp at h
          | some r1 =>
            rw [ih _ _ _ _ hr]
            simp only [Option.map_some', Option.some_bind, Option.bind_eq_bind]
            exact ihl _
        · simp only [if_neg hin, Option.some_bind, Option.bind_eq_bind]
          exact ihl _
    · rw [uncover_cells_fuel_guard _ s x y hc] at h ⊢
      exact h

theorem uncover_cells_fuel_mono_le {f g : Nat} (hfg : f ≤ g) (s : scene) (x y : Int)
    (r : scene × Nat) (h : uncover_cells_fuel f s x y = some r) :
    uncover_cells_fuel g s x y = some r := by
  induction hfg with
  | refl => exact h
  | step _ ih => exact uncover_cells_fuel_mono _ s x y r ih

/-! ## `uncover_cells` as a flood fill -/

theorem Reach.inb_end {P : Int → Int → Prop} {x y c d : Int} (r : Reach P x y c d) :
    inb c d := by
  cases r with
  | start hb _ => exact hb
  | step _ _ hb _ => exact hb

theorem Reach.holds_end {P : Int → Int → Prop} {x y c d : Int} (r : Reach P x y c d) :
    P c d := by
  cases r with
  | start _ hp => exact hp
  | step _ _ _ hp => exact hp

theorem Reach.holds_start {P : Int → Int → Prop} {x y c d : Int} (r : Reach P x y c d) :
    P x y := by
  induction r with
  | start _ hp => exact hp
  | step _ _ _ _ ih => exact ih

theorem Reach.relax {P Q : Int → Int → Prop} {x y c d : Int}
    (h : ∀ a b, Reach P x y a b → Q a b) (r : Reach P x y c d) : Reach Q x y c d := by
  induction r with
  | start hb hp => exact Reach.start hb (h _ _ (Reach.start hb hp))
  | step r' ho hb hp ih => exact Reach.step ih ho hb (h _ _ (Reach.step r' ho hb hp))

/-- The total `uncover_cells` is the recursion at any sufficient fuel. -/
theorem uncover_cells_spec (s : scene) (x y : Int) (hb : inb x y) :
    ∃ k, (∀ fuel, covered_safe_count s ≤ fuel →
            uncover_cells_fuel fuel s x y = some (uncover_cells s x y, k))
      ∧ Uncovered s x y (uncover_cells s x y) k := by
  obtain ⟨s', k, e, hU⟩ := uncover_cells_fuel_spec (covered_safe_count s) s x y hb le_rfl
  have e256 := uncover_cells_fuel_mono_le (covered_safe_count_le s) s x y _ e
  have hs : uncover_cells s x y = s' := by
    unfold uncover_cells
    rw [board_size, e256]
  rw [hs]
  exact ⟨k, fun fuel hf => uncover_cells_fuel_mono_le hf s x y _ e, hU⟩

/-- Every cell reached through covered cells without a mine is changed. -/
theorem Uncovered.changed {s s' : scene} {x y : Int} {k : Nat} (hU : Uncovered s x y s' k)
    {c d : Int} (r : Reach (covered_safe s) x y c d) :
    s'.entities (cell c d) ≠ s.entities (cell c d) := by
  obtain ⟨u1, u2, u3, _⟩ := hU
  induction r with
  | start hb hc =>
    intro e
    exact u3 ⟨e.trans hc.1, by rw [u1.1]; exact hc.2⟩
  | step _ ho hb hc ih =>
    intro e
    exact u2 _ _ (Reach.inb_end ‹_›) ih _ _ ho hb ⟨e.trans hc.1, by rw [u1.1]; exact hc.2⟩

theorem Uncovered.reached {s s' : scene} {x y : Int} {k : Nat} (hU : Uncovered s x y s' k)
    {c d : Int} (r : Reach (covered_safe s) x y c d) :
    s'.entities (cell c d) = UNCOVERED_0 + count_mines s c d := by
  have hne := hU.changed r
  rcases hU.1.2 (cell c d) with e | ⟨a, b, hab, hj, _, _, hv⟩
  · exact absurd e hne
  · obtain ⟨rfl, rfl⟩ := cell_inj r.inb_end hab hj
    exact hv

theorem Uncovered.frame {s s' : scene} {x y : Int} {k : Nat} (hU : Uncovered s x y s' k)
    (j : Int) (h : ¬ ∃ c d, inb c d ∧ j = cell c d ∧ Reach (covered_safe s) x y c d) :
    s'.entities j = s.entities j := by
  rcases hU.1.2 j with e | ⟨a, b, hab, hj, _, hr, _⟩
  · exact e
  · exact absurd ⟨a, b, hab, hj, hr⟩ h

/-- C1. `uncover_cells` on a cell of the board is the guarded 4-connected
flood fill: with S the cells joined to `(x, y)` by orthogonal steps through
covered cells without a mine, the mine layout is unchanged, every cell of S
shows `UNCOVERED_0 + n` with `n ≤ 8` the number of mines among its
neighbours in the grid, every other cell of the board and every entry
outside the board keeps its value, and on a target that is not covered or
holds a mine S is empty and the scene is returned as it was. -/
theorem uncover_cells_flood_fill (s : scene) (x y : Int) (hb : inb x y) :
    (uncover_cells s x y).mines = s.mines
    ∧ (∀ c d : Int, Reach (covered_safe s) x y c d →
        (uncover_cells s x y).entities (cell c d)
            = UNCOVERED_0 + spec_neighbour_mines s c d
          ∧ spec_neighbour_mines s c d ≤ 8)
    ∧ (∀ c d : Int, inb c d → ¬ Reach (covered_safe s) x y c d →
        (uncover_cells s x y).entities (cell c d) = s.entities (cell c d))
    ∧ (∀ j : Int, (j < 0 ∨ MAP_COLUMNS * MAP_ROWS ≤ j) →
        (uncover_cells s x y).entities j = s.entities j)
    ∧ (¬ covered_safe s x y →
        (∀ c d : Int, ¬ Reach (covered_safe s) x y c d) ∧ uncover_cells s x y = s) := by
  obtain ⟨k, hk, hU⟩ := uncover_cells_spec s x y hb
  refine ⟨hU.1.1, ?_, ?_, ?_, ?_⟩
  · intro c d r
    rw [hU.reached r, count_mines_eq_spec s c d r.inb_end]
    exact ⟨rfl, count_mines_eq_spec s c d r.inb_end ▸ count_mines_le s c d⟩
  · intro c d hcd hr
    apply hU.frame
    rintro ⟨a, b, hab, hj, r⟩
    obtain ⟨rfl, rfl⟩ := cell_inj hcd hab hj
    exact hr r
  · intro j hj
    apply hU.frame
    rintro ⟨a, b, hab, rfl, _⟩
    have := cell_range hab
    simp only [MAP_COLUMNS, MAP_ROWS] at hj
    omega
  · intro hc
    refine ⟨fun c d r => hc r.holds_start, ?_⟩
    have := hk _ le_rfl
    rw [uncover_cells_fuel_guard _ s x y hc] at this
    exact (congrArg Prod.fst (Option.some.inj this)).symm

/-- C1 on `corner_board`: the call on the corner `(0, 0)` reveals it. -/
theorem uncover_cells_flood_fill_witness :
    inb 0 0
      ∧ (uncover_cells corner_board 0 0).entities (cell 0 0)
          = UNCOVERED_0 + spec_neighbour_mines corner_board 0 0 :=
  ⟨by decide,
   ((uncover_cells_flood_fill corner_board 0 0 (by decide)).2.1 0 0
      (Reach.start (by decide) (by decide))).1⟩

/-- C4 as stated fails on `corner_board`: the corner `(0, 0)` is covered,
holds no mine and has no mine around it, the flagged cell `(1, 0)` holds no
mine and is its orthogonal neighbour, yet after `uncover_cells` on the corner
the cell `(1, 0)` is still `FLAGGED`, which is no `UNCOVERED_0 + n`. -/
theorem cascade_connectivity_counterexample :
    inb 0 0 ∧ covered_safe corner_board 0 0 ∧ count_mines corner_board 0 0 = 0
      ∧ Reach (safe corner_board) 0 0 1 0
      ∧ (uncover_cells corner_board 0 0).entities (cell 1 0) = FLAGGED
      ∧ ¬ ∃ n : Nat, (uncover_cells corner_board 0 0).entities (cell 1 0) = UNCOVERED_0 + n := by
  have h : (uncover_cells corner_board 0 0).entities (cell 1 0) = FLAGGED := by decide
  refine ⟨by decide, by decide, by decide, ?_, h, ?_⟩
  · exact Reach.step (Reach.start (by decide) (by decide)) (by decide) (by decide) (by decide)
  · rw [h]
    rintro ⟨n, hn⟩
    unfold FLAGGED UNCOVERED_0 at hn
    omega

/-- C4, amended. After `uncover_cells` on a covered cell of the board that
holds no mine and has no mine around it, that cell shows `UNCOVERED_0` and
every cell joined to it by orthogonal steps through cells that are covered
and hold no mine shows `UNCOVERED_0 + n`, with `n ≤ 8` its number of
neighbouring mines; a cell of the board that is not covered (flagged or
already uncovered) keeps its state, and so does every cell of the board that
no such path reaches, so the cascade does not pass through a cell that is
not covered; the mine layout is unchanged. -/
theorem cascade_connectivity (s : scene) (x y : Int) (hb : inb x y)
    (hc : covered_safe s x y) (h0 : spec_neighbour_mines s x y = 0) :
    (uncover_cells s x y).entities (cell x y) = UNCOVERED_0
    ∧ (∀ c d : Int, Reach (covered_safe s) x y c d →
        (uncover_cells s x y).entities (cell c d)
            = UNCOVERED_0 + spec_neighbour_mines s c d
          ∧ spec_neighbour_mines s c d ≤ 8)
    ∧ (∀ c d : Int, inb c d → s.entities (cell c d) ≠ COVERED →
        (uncover_cells s x y).entities (cell c d) = s.entities (cell c d))
    ∧ (∀ c d : Int, inb c d → ¬ Reach (covered_safe s) x y c d →
        (uncover_cells s x y).entities (cell c d) = s.entities (cell c d))
    ∧ (uncover_cells s x y).mines = s.mines := by
  obtain ⟨k, _, hU⟩ := uncover_cells_spec s x y hb
  have hframe : ∀ c d : Int, inb c d → ¬ Reach (covered_safe s) x y c d →
      (uncover_cells s x y).entities (cell c d) = s.entities (cell c d) := by
    intro c d hcd hr
    apply hU.frame
    rintro ⟨a, b, hab, hj, r⟩
    obtain ⟨rfl, rfl⟩ := cell_inj hcd hab hj
    exact hr r
  refine ⟨?_, ?_, ?_, hframe, hU.1.1⟩
  · rw [hU.reached (Reach.start hb hc), count_mines_eq_spec s x y hb, h0]
    rfl
  · intro c d r
    rw [hU.reached r, count_mines_eq_spec s c d r.inb_end]
    exact ⟨rfl, count_mines_eq_spec s c d r.inb_end ▸ count_mines_le s c d⟩
  · intro c d hcd hne
    exact hframe c d hcd (fun r => hne r.holds_end.1)

/-- C4, amended, on `corner_board`: the cascade from the corner `(0, 0)`
reaches the cell `(1, 1)` through `(0, 1)` and gives it its count, while the
flagged cell `(1, 0)` keeps its flag. -/
theorem cascade_connectivity_witness :
    inb 0 0 ∧ covered_safe corner_board 0 0 ∧ spec_neighbour_mines corner_board 0 0 = 0
      ∧ ((uncover_cells corner_board 0 0).entities (cell 1 1)
            = UNCOVERED_0 + spec_neighbour_mines corner_board 1 1
          ∧ spec_neighbour_mines corner_board 1 1 ≤ 8)
      ∧ (uncover_cells corner_board 0 0).entities (cell 1 0)
          = corner_board.entities (cell 1 0) :=
  ⟨by decide, by decide,
   (count_mines_eq_spec corner_board 0 0 (by decide)).symm.trans (by decide),
   (cascade_connectivity corner_board 0 0 (by decide) (by decide)
      ((count_mines_eq_spec corner_board 0 0 (by decide)).symm.trans (by decide))).2.1 1 1
    (Reach.step
      (Reach.step (Reach.start (by decide) (by decide)) (by decide : orth 0 0 0 1)
        (by decide) (by decide))
      (by decide : orth 0 1 1 1) (by decide) (by decide)),
   (cascade_connectivity corner_board 0 0 (by decide) (by decide)
      ((count_mines_eq_spec corner_board 0 0 (by decide)).symm.trans (by decide))).2.2.1 1 0
    (by decide) (by decide)⟩

/-- C9. A call of `uncover_cells` on a cell of the board returns with its
recursion nested at most as deep as there are covered cells without a mine
in the starting scene, a number that is at most 256: the call succeeds with
the same result at every fuel from that number on; the number `k` of calls
that pass the guard is exactly the number of covered cells without a mine
that the call uses up, so at most their number at the start; and no cell is
covered afterwards that was not covered before. -/
theorem uncover_cells_terminates (s : scene) (x y : Int) (hb : inb x y) :
    covered_safe_count s ≤ 256
    ∧ ∃ k : Nat,
        (∀ fuel, covered_safe_count s ≤ fuel →
          uncover_cells_fuel fuel s x y = some (uncover_cells s x y, k))
        ∧ covered_safe_count (uncover_cells s x y) + k = covered_safe_count s
        ∧ k ≤ covered_safe_count s
        ∧ ∀ c d : Int, (uncover_cells s x y).entities (cell c d) = COVERED →
            s.entities (cell c d) = COVERED := by
  obtain ⟨k, hk, hU⟩ := uncover_cells_spec s x y hb
  refine ⟨covered_safe_count_le s, k, hk, hU.2.2.2, by have := hU.2.2.2; omega, ?_⟩
  intro c d h
  rcases hU.1.2 (cell c d) with e | ⟨_, _, _, _, _, _, hv⟩
  · rw [← e]; exact h
  · exact absurd (hv ▸ h) (uncovered_ne_covered _)

/-- C9 on `corner_board`: the call on the corner `(0, 0)` makes three calls
that pass the guard, one for each covered cell without a mine. -/
theorem uncover_cells_terminates_witness :
    inb 0 0 ∧ covered_safe_count corner_board = 3
      ∧ uncover_cells_fuel 3 corner_board 0 0 = some (uncover_cells corner_board 0 0, 3) := by
  obtain ⟨_, k, hk, hc, _⟩ := uncover_cells_terminates corner_board 0 0 (by decide)
  have h3 : covered_safe_count corner_board = 3 := by decide
  have h0 : covered_safe_count (uncover_cells corner_board 0 0) = 0 := by decide
  have : k = 3 := by omega
  subst this
  exact ⟨by decide, h3, hk 3 (by omega)⟩

/-! ## The handlers, case by case -/

theorem pointer_cell_range {x y : Int} (hb : pointer_inb x y) :
    0 ≤ cell (pointer_column x) (pointer_row y)
      ∧ cell (pointer_column x) (pointer_row y) < MAP_COLUMNS * MAP_ROWS := by
  have := cell_range hb
  simp only [MAP_COLUMNS, MAP_ROWS]
  omega

theorem on_cell_marked_mines (s : scene) (x y : Int) :
    (on_cell_marked s x y).mines = s.mines := by
  unfold on_cell_marked
  simp only []
  split_ifs <;> rfl

theorem on_cell_marked_entities (s : scene) (x y : Int) (j : Int) :
    (on_cell_marked s x y).entities j
      = if j = cell (pointer_column x) (pointer_row y) then
          (if s.entities j = FLAGGED then COVERED
           else if s.entities j = COVERED then FLAGGED else s.entities j)
        else s.entities j := by
  unfold on_cell_marked cell
  simp only []
  by_cases hj : j = pointer_row y * MAP_COLUMNS + pointer_column x
  · subst hj
    split_ifs <;> simp_all [setEntity_entities]
  · split_ifs <;> simp_all [setEntity_entities]

/-- The four ways through `on_cell_clicked`. -/
theorem on_cell_clicked_cases (s : scene) (x y : Int) :
    (s.entities (cell (pointer_column x) (pointer_row y)) = FLAGGED
      ∧ on_cell_clicked_traced s x y = (s, false))
    ∨ (s.entities (cell (pointer_column x) (pointer_row y)) ≠ FLAGGED
      ∧ s.mines (cell (pointer_column x) (pointer_row y)) = true
      ∧ on_cell_clicked_traced s x y
          = (setEntity (uncover_all s) (cell (pointer_column x) (pointer_row y))
              MINE_EXPLODED, true))
    ∨ (s.entities (cell (pointer_column x) (pointer_row y)) ≠ FLAGGED
      ∧ s.mines (cell (pointer_column x) (pointer_row y)) = false
      ∧ (win_counts (uncover_cells s (pointer_column x) (pointer_row y))).1
          = (win_counts (uncover_cells s (pointer_column x) (pointer_row y))).2
      ∧ on_cell_clicked_traced s x y
          = (uncover_all (uncover_cells s (pointer_column x) (pointer_row y)), true))
    ∨ (s.entities (cell (pointer_column x) (pointer_row y)) ≠ FLAGGED
      ∧ s.mines (cell (pointer_column x) (pointer_row y)) = false
      ∧ (win_counts (uncover_cells s (pointer_column x) (pointer_row y))).1
          ≠ (win_counts (uncover_cells s (pointer_column x) (pointer_row y))).2
      ∧ on_cell_clicked_traced s x y
          = (uncover_cells s (pointer_column x) (pointer_row y), false)) := by
  unfold on_cell_clicked_traced cell
  simp only []
  by_cases hF : s.entities (pointer_row y * MAP_COLUMNS + pointer_column x) = FLAGGED
  · exact Or.inl ⟨hF, by rw [if_pos hF]⟩
  · by_cases hM : s.mines (pointer_row y * MAP_COLUMNS + pointer_column x) = true
    · exact Or.inr (Or.inl ⟨hF, hM, by rw [if_neg hF, if_pos hM]⟩)
    · have hM' : s.mines (pointer_row y * MAP_COLUMNS + pointer_column x) = false := by
        simpa using hM
      by_cases hW : (win_counts (uncover_cells s (pointer_column x) (pointer_row y))).1
          = (win_counts (uncover_cells s (pointer_column x) (pointer_row y))).2
      · exact Or.inr (Or.inr (Or.inl ⟨hF, hM', hW, by rw [if_neg hF, if_neg hM, if_pos hW]⟩))
      · exact Or.inr (Or.inr (Or.inr ⟨hF, hM', hW, by rw [if_neg hF, if_neg hM, if_neg hW]⟩))

/-- What `uncover_cells` does to one entity: nothing, or it turns a covered
cell without a mine into a count. -/
theorem uncover_cells_pointwise (s : scene) (x y : Int) (hb : inb x y) (j : Int) :
    (uncover_cells s x y).entities j = s.entities j
      ∨ (s.entities j = COVERED ∧ s.mines j = false
          ∧ ∃ n : Nat, n ≤ 8 ∧ (uncover_cells s x y).entities j = UNCOVERED_0 + n) := by
  obtain ⟨k, _, hU⟩ := uncover_cells_spec s x y hb
  rcases hU.1.2 j with e | ⟨a, b, _, hj, hc, _, hv⟩
  · exact Or.inl e
  · subst hj
    exact Or.inr ⟨hc.1, hc.2, count_mines s a b, count_mines_le s a b, hv⟩

theorem uncover_cells_mines (s : scene) (x y : Int) (hb : inb x y) :
    (uncover_cells s x y).mines = s.mines := by
  obtain ⟨k, _, hU⟩ := uncover_cells_spec s x y hb
  exact hU.1.1

/-- The scene that `on_cell_clicked` leaves, in each of its four ways. -/
theorem on_cell_clicked_scene (s : scene) (x y : Int) :
    (s.entities (cell (pointer_column x) (pointer_row y)) = FLAGGED
      ∧ on_cell_clicked s x y = s)
    ∨ (s.entities (cell (pointer_column x) (pointer_row y)) ≠ FLAGGED
      ∧ s.mines (cell (pointer_column x) (pointer_row y)) = true
      ∧ on_cell_clicked s x y
          = setEntity (uncover_all s) (cell (pointer_column x) (pointer_row y))
              MINE_EXPLODED)
    ∨ (s.entities (cell (pointer_column x) (pointer_row y)) ≠ FLAGGED
      ∧ s.mines (cell (pointer_column x) (pointer_row y)) = false
      ∧ on_cell_clicked s x y
          = uncover_all (uncover_cells s (pointer_column x) (pointer_row y)))
    ∨ (s.entities (cell (pointer_column x) (pointer_row y)) ≠ FLAGGED
      ∧ s.mines (cell (pointer_column x) (pointer_row y)) = false
      ∧ on_cell_clicked s x y = uncover_cells s (pointer_column x) (pointer_row y)) := by
  unfold on_cell_clicked
  rcases on_cell_clicked_cases s x y with ⟨h, e⟩ | ⟨h, h', e⟩ | ⟨h, h', _, e⟩ | ⟨h, h', _, e⟩
  · exact Or.inl ⟨h, by rw [e]⟩
  · exact Or.inr (Or.inl ⟨h, h', by rw [e]⟩)
  · exact Or.inr (Or.inr (Or.inl ⟨h, h', by rw [e]⟩))
  · exact Or.inr (Or.inr (Or.inr ⟨h, h', by rw [e]⟩))

theorem on_cell_clicked_mines (s : scene) (x y : Int) (hb : pointer_inb x y) :
    (on_cell_clicked s x y).mines = s.mines := by
  rcases on_cell_clicked_scene s x y with ⟨_, e⟩ | ⟨_, _, e⟩ | ⟨_, _, e⟩ | ⟨_, _, e⟩ <;>
    rw [e]
  · rw [setEntity_mines, uncover_all_mines]
  · rw [uncover_all_mines, uncover_cells_mines s _ _ hb]
  · exact uncover_cells_mines s _ _ hb

/-! ## Entities that a game can show -/

theorem enum_values :
    COVERED = 0 ∧ FLAGGED = 1 ∧ UNCOVERED_0 = 2 ∧ MINE_EXPLODED = 11 ∧ MINE_CROSSED = 12
      ∧ MINE_IDLE = 13 := ⟨rfl, rfl, rfl, rfl, rfl, rfl⟩

theorem WellFormed.at_start {s : scene} (h : all_covered s) : WellFormed s :=
  fun i h0 h1 => ⟨fun _ => Or.inl (h i h0 h1), fun _ => Or.inl (h i h0 h1)⟩

theorem WellFormed.after_marked {s : scene} (h : WellFormed s) (x y : Int) :
    WellFormed (on_cell_marked s x y) := by
  intro i h0 h1
  obtain ⟨hm, hs⟩ := h i h0 h1
  rw [on_cell_marked_mines, on_cell_marked_entities]
  obtain ⟨e0, e1, e2, e3, e4, e5⟩ := enum_values
  constructor
  · intro hmi
    have := hm hmi
    split_ifs <;> simp_all
  · intro hmi
    have := hs hmi
    split_ifs <;> simp_all

theorem WellFormed.after_uncover_all {s : scene} (h : WellFormed s) :
    WellFormed (uncover_all s) := by
  intro i h0 h1
  obtain ⟨hm, hs⟩ := h i h0 h1
  have hi : 0 ≤ i ∧ i < 256 := ⟨h0, by simpa [MAP_COLUMNS, MAP_ROWS] using h1⟩
  rw [uncover_all_mines, uncover_all_entities, if_pos hi]
  constructor
  · intro hmi
    rw [if_pos hmi]
    exact Or.inr (Or.inr (Or.inl rfl))
  · intro hmi
    have hmi' : ¬ s.mines i = true := by simp [hmi]
    rw [if_neg hmi']
    by_cases hf : s.entities i = FLAGGED
    · rw [if_pos hf]
      exact Or.inr (Or.inr (Or.inl rfl))
    · rw [if_neg hf]
      exact hs hmi

theorem WellFormed.after_uncover_cells {s : scene} (h : WellFormed s) (x y : Int) (hb : inb x y) :
    WellFormed (uncover_cells s x y) := by
  intro i h0 h1
  obtain ⟨hm, hs⟩ := h i h0 h1
  rw [uncover_cells_mines s x y hb]
  rcases uncover_cells_pointwise s x y hb i with e | ⟨_, hmi, n, hn, e⟩
  · rw [e]; exact ⟨hm, hs⟩
  · refine ⟨fun hmi' => ?_, fun _ => Or.inr (Or.inr (Or.inr ⟨n, hn, e⟩))⟩
    rw [hmi] at hmi'
    exact absurd hmi' (by simp)

theorem WellFormed.after_clicked {s : scene} (h : WellFormed s) (x y : Int) (hb : pointer_inb x y) :
    WellFormed (on_cell_clicked s x y) := by
  rcases on_cell_clicked_scene s x y with ⟨_, e⟩ | ⟨_, hM, e⟩ | ⟨_, _, e⟩ | ⟨_, _, e⟩ <;>
    rw [e]
  · exact h
  · intro i h0 h1
    obtain ⟨hm, hs⟩ := WellFormed.after_uncover_all h i h0 h1
    rw [setEntity_mines, setEntity_entities]
    by_cases hi : i = cell (pointer_column x) (pointer_row y)
    · rw [if_pos hi]
      refine ⟨fun _ => Or.inr (Or.inr (Or.inr rfl)), fun hmi => ?_⟩
      rw [uncover_all_mines, hi, hM] at hmi
      exact absurd hmi (by simp)
    · rw [if_neg hi]
      exact ⟨hm, hs⟩
  · exact WellFormed.after_uncover_all (WellFormed.after_uncover_cells h _ _ hb)
  · exact WellFormed.after_uncover_cells h _ _ hb

theorem Reachable.wellFormed {s : scene} (h : Reachable s) : WellFormed s := by
  induction h with
  | init s h => exact WellFormed.at_start h
  | clicked s x y _ hb ih => exact ih.after_clicked x y hb
  | marked s x y _ _ ih => exact ih.after_marked x y

/-! ## The state machine of a cell -/

/-- C8 as stated fails on `two_mine_board`: after a click on the mine
`(0, 0)` a click on the mine `(3, 0)` takes the cell `(0, 0)` from
`MINE_EXPLODED` to `MINE_IDLE` and the cell `(3, 0)` from `MINE_IDLE` to
`MINE_EXPLODED`, two transitions that are not among the seven. -/
theorem state_machine_counterexample :
    Reachable (on_cell_clicked two_mine_board 0 0) ∧ pointer_inb 48 0
      ∧ (on_cell_clicked two_mine_board 0 0).entities 0 = MINE_EXPLODED
      ∧ (on_cell_clicked (on_cell_clicked two_mine_board 0 0) 48 0).entities 0 = MINE_IDLE
      ∧ (on_cell_clicked two_mine_board 0 0).entities 3 = MINE_IDLE
      ∧ (on_cell_clicked (on_cell_clicked two_mine_board 0 0) 48 0).entities 3
          = MINE_EXPLODED := by
  refine ⟨?_, by decide, by decide, by decide, by decide, by decide⟩
  exact Reachable.clicked _ 0 0 (Reachable.init _ (fun _ _ _ => rfl)) (by decide)

/-- C8, amended. In a scene that a game can reach, a call of
`on_cell_marked` on a cell of the board changes at most the resolved cell,
from `COVERED` to `FLAGGED` or back; a call of `on_cell_clicked` changes a
cell of the board only by one of: covered without a mine to a count of at
most 8; the clicked mine from covered to exploded; a mine from covered or
flagged to idle; a flagged cell without a mine to crossed; and, once a mine
has been clicked before, the clicked mine from idle to exploded and the
mine that exploded earlier to idle. -/
theorem state_machine (s : scene) (hR : Reachable s) (x y : Int) (hb : pointer_inb x y)
    (i : Int) (h0 : 0 ≤ i) (h1 : i < MAP_COLUMNS * MAP_ROWS) :
    ((on_cell_marked s x y).entities i ≠ s.entities i →
      i = cell (pointer_column x) (pointer_row y)
        ∧ ((s.entities i = COVERED ∧ (on_cell_marked s x y).entities i = FLAGGED)
          ∨ (s.entities i = FLAGGED ∧ (on_cell_marked s x y).entities i = COVERED)))
    ∧ ((on_cell_clicked s x y).entities i ≠ s.entities i →
      (s.mines i = false ∧ s.entities i = COVERED
          ∧ ∃ n : Nat, n ≤ 8 ∧ (on_cell_clicked s x y).entities i = UNCOVERED_0 + n)
        ∨ (s.mines i = true ∧ i = cell (pointer_column x) (pointer_row y)
          ∧ s.entities i = COVERED ∧ (on_cell_clicked s x y).entities i = MINE_EXPLODED)
        ∨ (s.mines i = true ∧ s.entities i = COVERED
          ∧ (on_cell_clicked s x y).entities i = MINE_IDLE)
        ∨ (s.mines i = true ∧ s.entities i = FLAGGED
          ∧ (on_cell_clicked s x y).entities i = MINE_IDLE)
        ∨ (s.mines i = false ∧ s.entities i = FLAGGED
          ∧ (on_cell_clicked s x y).entities i = MINE_CROSSED)
        ∨ (s.mines i = true ∧ i = cell (pointer_column x) (pointer_row y)
          ∧ s.entities i = MINE_IDLE ∧ (on_cell_clicked s x y).entities i = MINE_EXPLODED)
        ∨ (s.mines i = true ∧ s.entities i = MINE_EXPLODED
          ∧ (on_cell_clicked s x y).entities i = MINE_IDLE)) := by
  have hW := hR.wellFormed i h0 h1
  have hi : 0 ≤ i ∧ i < 256 := ⟨h0, by simpa [MAP_COLUMNS, MAP_ROWS] using h1⟩
  obtain ⟨e0, e1, e2, e3, e4, e5⟩ := enum_values
  constructor
  · rw [on_cell_marked_entities]
    intro hne
    by_cases hj : i = cell (pointer_column x) (pointer_row y)
    · refine ⟨hj, ?_⟩
      rw [if_pos hj] at hne ⊢
      by_cases hF : s.entities i = FLAGGED
      · rw [if_pos hF]; exact Or.inr ⟨hF, rfl⟩
      · rw [if_neg hF] at hne ⊢
        by_cases hC : s.entities i = COVERED
        · rw [if_pos hC]; exact Or.inl ⟨hC, rfl⟩
        · rw [if_neg hC] at hne; exact absurd rfl hne
    · rw [if_neg hj] at hne; exact absurd rfl hne
  · rcases on_cell_clicked_scene s x y with ⟨_, e⟩ | ⟨hF, hM, e⟩ | ⟨_, _, e⟩ | ⟨_, _, e⟩ <;>
      rw [e] <;> intro hne
    · exact absurd rfl hne
    · rw [setEntity_entities] at hne ⊢
      by_cases hj : i = cell (pointer_column x) (pointer_row y)
      · rw [if_pos hj] at hne
        simp only [if_pos hj]
        rw [← hj] at hM hF
        have := hW.1 hM
        simp_all
        omega
      · rw [if_neg hj] at hne
        simp only [if_neg hj]
        rw [uncover_all_entities, if_pos hi] at hne ⊢
        by_cases hmi : s.mines i = true
        · have := hW.1 hmi
          simp_all
          omega
        · have hmi' : s.mines i = false := by simpa using hmi
          have := hW.2 hmi'
          by_cases hf : s.entities i = FLAGGED <;> simp_all
    · rw [uncover_all_entities, if_pos hi, uncover_cells_mines s _ _ hb] at hne ⊢
      rcases uncover_cells_pointwise s _ _ hb i with e' | ⟨hc, hmi, n, hn, e'⟩
      · rw [e'] at hne ⊢
        by_cases hmi : s.mines i = true
        · have := hW.1 hmi
          simp_all
          omega
        · have hmi' : s.mines i = false := by simpa using hmi
          have := hW.2 hmi'
          by_cases hf : s.entities i = FLAGGED <;> simp_all
      · have hnf : UNCOVERED_0 + n ≠ FLAGGED := by rw [e1, e2]; omega
        rw [e'] at hne ⊢
        have hmi' : ¬ s.mines i = true := by simp [hmi]
        simp only [if_neg hmi', if_neg hnf] at hne ⊢
        exact Or.inl ⟨hmi, hc, n, hn, rfl⟩
    · rcases uncover_cells_pointwise s _ _ hb i with e' | ⟨hc, hmi, n, hn, e'⟩
      · exact absurd e' hne
      · exact Or.inl ⟨hmi, hc, n, hn, e'⟩

/-- C8, amended, on the reachable scene after a click on the mine `(0, 0)`
of `two_mine_board`: the second click, on the mine `(3, 0)`, changes the cell
`(0, 0)`, and its change is one of the listed transitions. -/
theorem state_machine_witness :
    Reachable (on_cell_clicked two_mine_board 0 0) ∧ pointer_inb 48 0
      ∧ (on_cell_clicked (on_cell_clicked two_mine_board 0 0) 48 0).entities 0
          ≠ (on_cell_clicked two_mine_board 0 0).entities 0
      ∧ (((on_cell_clicked two_mine_board 0 0).mines 0 = false
          ∧ (on_cell_clicked two_mine_board 0 0).entities 0 = COVERED
          ∧ ∃ n : Nat, n ≤ 8
            ∧ (on_cell_clicked (on_cell_clicked two_mine_board 0 0) 48 0).entities 0
                = UNCOVERED_0 + n)
        ∨ ((on_cell_clicked two_mine_board 0 0).mines 0 = true
          ∧ (0 : Int) = cell (pointer_column 48) (pointer_row 0)
          ∧ (on_cell_clicked two_mine_board 0 0).entities 0 = COVERED
          ∧ (on_cell_clicked (on_cell_clicked two_mine_board 0 0) 48 0).entities 0
              = MINE_EXPLODED)
        ∨ ((on_cell_clicked two_mine_board 0 0).mines 0 = true
          ∧ (on_cell_clicked two_mine_board 0 0).entities 0 = COVERED
          ∧ (on_cell_clicked (on_cell_clicked two_mine_board 0 0) 48 0).entities 0
              = MINE_IDLE)
        ∨ ((on_cell_clicked two_mine_board 0 0).mines 0 = true
          ∧ (on_cell_clicked two_mine_board 0 0).entities 0 = FLAGGED
          ∧ (on_cell_clicked (on_cell_clicked two_mine_board 0 0) 48 0).entities 0
              = MINE_IDLE)
        ∨ ((on_cell_clicked two_mine_board 0 0).mines 0 = false
          ∧ (on_cell_clicked two_mine_board 0 0).entities 0 = FLAGGED
          ∧ (on_cell_clicked (on_cell_clicked two_mine_board 0 0) 48 0).entities 0
              = MINE_CROSSED)
        ∨ ((on_cell_clicked two_mine_board 0 0).mines 0 = true
          ∧ (0 : Int) = cell (pointer_column 48) (pointer_row 0)
          ∧ (on_cell_clicked two_mine_board 0 0).entities 0 = MINE_IDLE
          ∧ (on_cell_clicked (on_cell_clicked two_mine_board 0 0) 48 0).entities 0
              = MINE_EXPLODED)
        ∨ ((on_cell_clicked two_mine_board 0 0).mines 0 = true
          ∧ (on_cell_clicked two_mine_board 0 0).entities 0 = MINE_EXPLODED
          ∧ (on_cell_clicked (on_cell_clicked two_mine_board 0 0) 48 0).entities 0
              = MINE_IDLE)) :=
  ⟨Reachable.clicked _ 0 0 (Reachable.init _ (fun _ _ _ => rfl)) (by decide),
   by decide, by decide,
   (state_machine (on_cell_clicked two_mine_board 0 0)
      (Reachable.clicked _ 0 0 (Reachable.init _ (fun _ _ _ => rfl)) (by decide))
      48 0 (by decide) 0 (by decide) (by decide)).2 (by decide)⟩

/-! ## The win check -/

/-- The counting loop of the win check over the indices `0 .. n - 1`, when
every mine among them is covered or flagged: `mines` does not exceed
`covered`, and they are equal exactly when no cell without a mine is covered
or flagged. -/
theorem win_counts_loop (s : scene) (n : Nat)
    (h : ∀ i : Nat, i < n → s.mines (i : Int) = true →
      s.entities (i : Int) = COVERED ∨ s.entities (i : Int) = FLAGGED) :
    ((List.range n).foldl
        (fun (acc : Int × Int) (i : Nat) =>
          (acc.1 + (if s.entities (i : Int) = COVERED ∨ s.entities (i : Int) = FLAGGED
                    then 1 else 0),
           acc.2 + (if s.mines (i : Int) = true then 1 else 0)))
        (0, 0)).2
      ≤ ((List.range n).foldl
        (fun (acc : Int × Int) (i : Nat) =>
          (acc.1 + (if s.entities (i : Int) = COVERED ∨ s.entities (i : Int) = FLAGGED
                    then 1 else 0),
           acc.2 + (if s.mines (i : Int) = true then 1 else 0)))
        (0, 0)).1
    ∧ (((List.range n).foldl
        (fun (acc : Int × Int) (i : Nat) =>
          (acc.1 + (if s.entities (i : Int) = COVERED ∨ s.entities (i : Int) = FLAGGED
                    then 1 else 0),
           acc.2 + (if s.mines (i : Int) = true then 1 else 0)))
        (0, 0)).1
      = ((List.range n).foldl
        (fun (acc : Int × Int) (i : Nat) =>
          (acc.1 + (if s.entities (i : Int) = COVERED ∨ s.entities (i : Int) = FLAGGED
                    then 1 else 0),
           acc.2 + (if s.mines (i : Int) = true then 1 else 0)))
        (0, 0)).2
      ↔ ∀ i : Nat, i < n → s.mines (i : Int) = false →
          ¬ (s.entities (i : Int) = COVERED ∨ s.entities (i : Int) = FLAGGED)) := by
  induction n with
  | zero =>
    simp
  | succ n ih =>
    obtain ⟨ih1, ih2⟩ := ih (fun i hi => h i (by omega))
    rw [List.range_succ, List.foldl_append]
    simp only [List.foldl_cons, List.foldl_nil]
    generalize (List.range n).foldl
        (fun (acc : Int × Int) (i : Nat) =>
          (acc.1 + (if s.entities (i : Int) = COVERED ∨ s.entities (i : Int) = FLAGGED
                    then 1 else 0),
           acc.2 + (if s.mines (i : Int) = true then 1 else 0)))
        (0, 0) = c at ih1 ih2 ⊢
    have hn := h n (by omega)
    have key : ∀ P : Nat → Prop, (∀ i : Nat, i < n + 1 → P i) ↔ ((∀ i : Nat, i < n → P i) ∧ P n) := by
      intro P
      constructor
      · exact fun hp => ⟨fun i hi => hp i (by omega), hp n (by omega)⟩
      · rintro ⟨hp, hpn⟩ i hi
        rcases Nat.lt_succ_iff_lt_or_eq.mp hi with h' | h'
        · exact hp i h'
        · exact h' ▸ hpn
    rw [key, ← ih2]
    by_cases hm : s.mines (n : Int) = true
    · have hcf := hn hm
      rw [if_pos hm, if_pos hcf]
      refine ⟨by omega, fun e => ⟨by omega, fun h' => ?_⟩, fun e => by omega⟩
      rw [hm] at h'
      exact absurd h' (by simp)
    · have hm' : s.mines (n : Int) = false := by simpa using hm
      by_cases hcf : s.entities (n : Int) = COVERED ∨ s.entities (n : Int) = FLAGGED
      · rw [if_neg hm, if_pos hcf]
        refine ⟨by omega, fun e => by omega, fun e => absurd hcf (e.2 hm')⟩
      · rw [if_neg hm, if_neg hcf]
        refine ⟨by omega, fun e => ⟨by omega, fun _ => hcf⟩, fun e => by omega⟩

/-- The counting loop over the indices `0 .. n - 1` computes the sizes of
the two sets of cells that the win check compares. -/
theorem win_counts_loop_card (s : scene) (n : Nat) :
    (List.range n).foldl
        (fun (acc : Int × Int) (i : Nat) =>
          (acc.1 + (if s.entities (i : Int) = COVERED ∨ s.entities (i : Int) = FLAGGED
                    then 1 else 0),
           acc.2 + (if s.mines (i : Int) = true then 1 else 0)))
        (0, 0)
      = ((((Finset.range n).filter
            (fun i : Nat =>
              s.entities (i : Int) = COVERED ∨ s.entities (i : Int) = FLAGGED)).card : Int),
         (((Finset.range n).filter (fun i : Nat => s.mines (i : Int) = true)).card : Int)) := by
  induction n with
  | zero => simp
  | succ n ih =>
    rw [List.range_succ, List.foldl_append, ih]
    simp only [List.foldl_cons, List.foldl_nil, Finset.range_succ, Finset.filter_insert]
    have c1 := Finset.card_insert_of_not_mem
      (show n ∉ (Finset.range n).filter
          (fun i : Nat => s.entities (i : Int) = COVERED ∨ s.entities (i : Int) = FLAGGED) from
        fun h => by simpa using (Finset.mem_filter.mp h).1)
    have c2 := Finset.card_insert_of_not_mem
      (show n ∉ (Finset.range n).filter (fun i : Nat => s.mines (i : Int) = true) from
        fun h => by simpa using (Finset.mem_filter.mp h).1)
    split_ifs <;> simp only [c1, c2, Nat.cast_add, Nat.cast_one, add_zero]

/-- The two variables of the win check of `on_cell_clicked` are the number
of covered or flagged cells and the number of mines. -/
theorem win_counts_eq_spec (s : scene) :
    win_counts s = ((spec_covered_or_flagged s : Int), (spec_mine_count s : Int)) := by
  unfold win_counts spec_covered_or_flagged spec_mine_count
  rw [board_size, win_counts_loop_card]

/-- The win check on a scene in play: `covered == mines` holds exactly when
no cell of the board without a mine is covered or flagged. -/
theorem win_counts_in_play (s : scene) (h : InPlay s) :
    (win_counts s).1 = (win_counts s).2
      ↔ ∀ i : Int, 0 ≤ i → i < MAP_COLUMNS * MAP_ROWS → s.mines i = false →
          ¬ (s.entities i = COVERED ∨ s.entities i = FLAGGED) := by
  have hb : MAP_COLUMNS * MAP_ROWS = 256 := by decide
  unfold win_counts
  rw [board_size, (win_counts_loop s 256 ?_).2, hb]
  · constructor
    · intro hp i h0 h1 hm
      have := hp i.toNat (by omega) (by rwa [Int.toNat_of_nonneg h0])
      rwa [Int.toNat_of_nonneg h0] at this
    · intro hp i hi hm
      exact hp i (by omega) (by omega) hm
  · intro i hi hm
    exact (h i (by omega) (by rw [hb]; omega)).1 hm

theorem InPlay.at_start_of_play {s : scene} (h : all_covered s) : InPlay s :=
  fun i h0 h1 => ⟨fun _ => Or.inl (h i h0 h1), fun _ => Or.inl (h i h0 h1)⟩

theorem InPlay.kept_by_marked {s : scene} (h : InPlay s) (x y : Int) :
    InPlay (on_cell_marked s x y) := by
  intro i h0 h1
  obtain ⟨hm, hs⟩ := h i h0 h1
  rw [on_cell_marked_mines, on_cell_marked_entities]
  have e0 : COVERED = 0 := rfl
  have e1 : FLAGGED = 1 := rfl
  have e2 : UNCOVERED_0 = 2 := rfl
  constructor
  · intro hmi
    have := hm hmi
    split_ifs <;> simp_all
  · intro hmi
    have := hs hmi
    split_ifs <;> simp_all

theorem InPlay.kept_by_uncover_cells {s : scene} (h : InPlay s) (x y : Int) (hb : inb x y) :
    InPlay (uncover_cells s x y) := by
  intro i h0 h1
  obtain ⟨hm, hs⟩ := h i h0 h1
  rw [uncover_cells_mines s x y hb]
  rcases uncover_cells_pointwise s x y hb i with e | ⟨_, hmi, n, hn, e⟩
  · rw [e]; exact ⟨hm, hs⟩
  · refine ⟨fun hmi' => ?_, fun _ => Or.inr (Or.inr ⟨n, hn, e⟩)⟩
    rw [hmi] at hmi'
    exact absurd hmi' (by simp)

theorem Playing.in_play {s : scene} (h : Playing s) : InPlay s := by
  induction h with
  | init s h => exact InPlay.at_start_of_play h
  | clicked s x y _ hb hn ih =>
    unfold on_cell_clicked
    rcases on_cell_clicked_cases s x y with ⟨_, e⟩ | ⟨_, _, e⟩ | ⟨_, _, _, e⟩ | ⟨_, _, _, e⟩
    · rw [e]; exact ih
    · rw [e] at hn; exact absurd hn (by simp)
    · rw [e] at hn; exact absurd hn (by simp)
    · rw [e]; exact ih.kept_by_uncover_cells _ _ hb
  | marked s x y _ _ ih => exact ih.kept_by_marked x y

/-- C10. In a game in which no call has run `uncover_all` yet, every mine
is covered or flagged and every cell without a mine is covered, flagged or
shows a count; so after the cascade of a click on an unflagged cell of the
board without a mine, the win check `covered == mines` holds exactly when
every cell without a mine shows a count, and when it holds `uncover_all`
runs, every flagged cell is a mine, and no cell of the board is left
`MINE_CROSSED`. -/
theorem win_sound (s : scene) (hP : Playing s) :
    (∀ i : Int, 0 ≤ i → i < MAP_COLUMNS * MAP_ROWS →
      (s.mines i = true → s.entities i = COVERED ∨ s.entities i = FLAGGED)
      ∧ (s.mines i = false →
        s.entities i = COVERED ∨ s.entities i = FLAGGED
          ∨ ∃ n : Nat, n ≤ 8 ∧ s.entities i = UNCOVERED_0 + n))
    ∧ ∀ x y : Int, pointer_inb x y →
        s.entities (cell (pointer_column x) (pointer_row y)) ≠ FLAGGED →
        s.mines (cell (pointer_column x) (pointer_row y)) = false →
        ((win_counts (uncover_cells s (pointer_column x) (pointer_row y))).1
            = (win_counts (uncover_cells s (pointer_column x) (pointer_row y))).2
          ↔ ∀ i : Int, 0 ≤ i → i < MAP_COLUMNS * MAP_ROWS → s.mines i = false →
              ∃ n : Nat, n ≤ 8
                ∧ (uncover_cells s (pointer_column x) (pointer_row y)).entities i
                    = UNCOVERED_0 + n)
        ∧ ((win_counts (uncover_cells s (pointer_column x) (pointer_row y))).1
            = (win_counts (uncover_cells s (pointer_column x) (pointer_row y))).2 →
          on_cell_clicked_traced s x y
              = (uncover_all (uncover_cells s (pointer_column x) (pointer_row y)), true)
            ∧ (∀ i : Int, 0 ≤ i → i < MAP_COLUMNS * MAP_ROWS →
                (uncover_cells s (pointer_column x) (pointer_row y)).entities i = FLAGGED →
                s.mines i = true)
            ∧ ∀ i : Int, 0 ≤ i → i < MAP_COLUMNS * MAP_ROWS →
                (on_cell_clicked s x y).entities i ≠ MINE_CROSSED) := by
  refine ⟨hP.in_play, fun x y hb hF hM => ?_⟩
  have hI := hP.in_play.kept_by_uncover_cells _ _ hb
  have hm := uncover_cells_mines s (pointer_column x) (pointer_row y) hb
  have e0 : COVERED = 0 := rfl
  have e1 : FLAGGED = 1 := rfl
  have e2 : UNCOVERED_0 = 2 := rfl
  have e4 : MINE_CROSSED = 12 := rfl
  have e5 : MINE_IDLE = 13 := rfl
  have hiff : (win_counts (uncover_cells s (pointer_column x) (pointer_row y))).1
        = (win_counts (uncover_cells s (pointer_column x) (pointer_row y))).2
      ↔ ∀ i : Int, 0 ≤ i → i < MAP_COLUMNS * MAP_ROWS → s.mines i = false →
          ∃ n : Nat, n ≤ 8
            ∧ (uncover_cells s (pointer_column x) (pointer_row y)).entities i
                = UNCOVERED_0 + n := by
    rw [win_counts_in_play _ hI, hm]
    constructor
    · intro hp i h0 h1 hmi
      have h' := hp i h0 h1 hmi
      rcases (hI i h0 h1).2 (by rw [hm]; exact hmi) with h | h | h
      · exact absurd (Or.inl h) h'
      · exact absurd (Or.inr h) h'
      · exact h
    · intro hp i h0 h1 hmi
      obtain ⟨n, _, hn⟩ := hp i h0 h1 hmi
      rw [hn, e0, e1, e2]
      omega
  refine ⟨hiff, fun hW => ?_⟩
  have hall := hiff.mp hW
  have hT : on_cell_clicked_traced s x y
      = (uncover_all (uncover_cells s (pointer_column x) (pointer_row y)), true) := by
    rcases on_cell_clicked_cases s x y with ⟨h, _⟩ | ⟨_, h, _⟩ | ⟨_, _, _, e⟩ | ⟨_, _, h, _⟩
    · exact absurd h hF
    · rw [hM] at h; exact absurd h (by simp)
    · exact e
    · exact absurd hW h
  refine ⟨hT, ?_, ?_⟩
  · intro i h0 h1 hf
    by_contra hmi
    have hmi' : s.mines i = false := by simpa using hmi
    obtain ⟨n, _, hn⟩ := hall i h0 h1 hmi'
    rw [hn, e1, e2] at hf
    omega
  · intro i h0 h1
    have hi : 0 ≤ i ∧ i < 256 := ⟨h0, by simpa [MAP_COLUMNS, MAP_ROWS] using h1⟩
    have hE : on_cell_clicked s x y
        = uncover_all (uncover_cells s (pointer_column x) (pointer_row y)) := by
      unfold on_cell_clicked
      rw [hT]
    rw [hE, uncover_all_entities, if_pos hi, hm]
    by_cases hmi : s.mines i = true
    · rw [if_pos hmi, e4, e5]
      omega
    · have hmi' : s.mines i = false := by simpa using hmi
      obtain ⟨n, hn8, hn⟩ := hall i h0 h1 hmi'
      have hnf : ¬ (uncover_cells s (pointer_column x) (pointer_row y)).entities i = FLAGGED := by
        rw [hn, e1, e2]; omega
      rw [if_neg hmi, if_neg hnf, hn, e2, e4]
      omega

/-- C10 on `corner_new`: the first click, on the corner `(0, 0)`, reveals the
four cells without a mine, the win check holds, `uncover_all` runs and
no cell is `MINE_CROSSED`. -/
theorem win_sound_witness :
    Playing corner_new ∧ pointer_inb 0 0
      ∧ on_cell_clicked_traced corner_new 0 0
          = (uncover_all (uncover_cells corner_new (pointer_column 0) (pointer_row 0)), true)
      ∧ ∀ i : Int, 0 ≤ i → i < MAP_COLUMNS * MAP_ROWS →
          (on_cell_clicked corner_new 0 0).entities i ≠ MINE_CROSSED :=
  ⟨Playing.init _ (fun _ _ _ => rfl), by decide,
   (((win_sound corner_new (Playing.init _ (fun _ _ _ => rfl))).2 0 0
      (by decide) (by decide) (by decide)).2 (by decide)).1,
   (((win_sound corner_new (Playing.init _ (fun _ _ _ => rfl))).2 0 0
      (by decide) (by decide) (by decide)).2 (by decide)).2.2⟩

/-- C5. The win check compares counts only: on `checker_board`, a new game
with 127 mines, the player clicks the mine `(1, 1)`, flags the cell `(0, 1)`,
which holds no mine, and clicks the corner `(0, 0)`, which holds no mine.
After the cascade of that last click the number of cells that are covered or
flagged is 127 and the number of mines is 127; these two numbers are the
values that the win check of `on_cell_clicked` compares, so `uncover_all`
runs, while the flagged cell `(0, 1)` holds no mine; it ends
`MINE_CROSSED`. -/
theorem weak_win :
    ∃ (s0 : scene) (acts : List action) (x y : Int),
      all_covered s0 ∧ (∀ a ∈ acts, a.in_grid) ∧ pointer_inb x y
      ∧ (play s0 acts).mines (cell (pointer_column x) (pointer_row y)) = false
      ∧ (play s0 acts).entities (cell (pointer_column x) (pointer_row y)) ≠ FLAGGED
      ∧ spec_covered_or_flagged
            (uncover_cells (play s0 acts) (pointer_column x) (pointer_row y))
          = spec_mine_count
              (uncover_cells (play s0 acts) (pointer_column x) (pointer_row y))
      ∧ spec_mine_count (uncover_cells (play s0 acts) (pointer_column x) (pointer_row y))
          = 127
      ∧ win_counts (uncover_cells (play s0 acts) (pointer_column x) (pointer_row y))
          = ((spec_covered_or_flagged
                (uncover_cells (play s0 acts) (pointer_column x) (pointer_row y)) : Int),
             (spec_mine_count
                (uncover_cells (play s0 acts) (pointer_column x) (pointer_row y)) : Int))
      ∧ (win_counts (uncover_cells (play s0 acts) (pointer_column x) (pointer_row y))).1
          = (win_counts (uncover_cells (play s0 acts) (pointer_column x) (pointer_row y))).2
      ∧ on_cell_clicked_traced (play s0 acts) x y
          = (uncover_all (uncover_cells (play s0 acts) (pointer_column x) (pointer_row y)),
              true)
      ∧ ∃ i : Int, 0 ≤ i ∧ i < MAP_COLUMNS * MAP_ROWS
          ∧ (uncover_cells (play s0 acts) (pointer_column x) (pointer_row y)).entities i
              = FLAGGED
          ∧ (uncover_cells (play s0 acts) (pointer_column x) (pointer_row y)).mines i = false
          ∧ (on_cell_clicked (play s0 acts) x y).entities i = MINE_CROSSED := by
  have hd : win_counts
      (uncover_cells (play checker_board [action.clicked 16 16, action.marked 0 16])
        (pointer_column 0) (pointer_row 0)) = (127, 127) := by decide
  have hs := win_counts_eq_spec
      (uncover_cells (play checker_board [action.clicked 16 16, action.marked 0 16])
        (pointer_column 0) (pointer_row 0))
  have h1 : spec_covered_or_flagged
      (uncover_cells (play checker_board [action.clicked 16 16, action.marked 0 16])
        (pointer_column 0) (pointer_row 0)) = 127 := by
    have := congrArg Prod.fst (hs.symm.trans hd)
    simp only at this
    exact_mod_cast this
  have h2 : spec_mine_count
      (uncover_cells (play checker_board [action.clicked 16 16, action.marked 0 16])
        (pointer_column 0) (pointer_row 0)) = 127 := by
    have := congrArg Prod.snd (hs.symm.trans hd)
    simp only at this
    exact_mod_cast this
  have hF : (play checker_board [action.clicked 16 16, action.marked 0 16]).entities
      (cell (pointer_column 0) (pointer_row 0)) ≠ FLAGGED := by decide
  have hM : (play checker_board [action.clicked 16 16, action.marked 0 16]).mines
      (cell (pointer_column 0) (pointer_row 0)) = false := by decide
  have hW : (win_counts
      (uncover_cells (play checker_board [action.clicked 16 16, action.marked 0 16])
        (pointer_column 0) (pointer_row 0))).1
      = (win_counts
      (uncover_cells (play checker_board [action.clicked 16 16, action.marked 0 16])
        (pointer_column 0) (pointer_row 0))).2 := by rw [hd]
  have hT : on_cell_clicked_traced
      (play checker_board [action.clicked 16 16, action.marked 0 16]) 0 0
      = (uncover_all
          (uncover_cells (play checker_board [action.clicked 16 16, action.marked 0 16])
            (pointer_column 0) (pointer_row 0)), true) := by
    rcases on_cell_clicked_cases
        (play checker_board [action.clicked 16 16, action.marked 0 16]) 0 0
      with ⟨h, _⟩ | ⟨_, h, _⟩ | ⟨_, _, _, e⟩ | ⟨_, _, h, _⟩
    · exact absurd h hF
    · rw [hM] at h; exact absurd h (by simp)
    · exact e
    · exact absurd hW h
  refine ⟨checker_board, [action.clicked 16 16, action.marked 0 16], 0, 0,
    fun _ _ _ => rfl, ?_, by decide, hM, hF, h1.trans h2.symm, h2, hs, hW, hT,
    16, by decide, by decide, by decide, by decide, by decide⟩
  intro a ha
  simp only [List.mem_cons, List.mem_singleton, List.mem_nil_iff, or_false] at ha
  rcases ha with rfl | rfl <;> decide

end Minesweeper
